import Mathlib

/-!
Verification of the vchtml core (Diff, Patch, Merge) against its
natural-language specification.

The Go library operates on trees produced by the external HTML parser
(golang.org/x/net/html).  Following the specification, the parser and
serializer are external collaborators: trees are modelled directly, a
Go `*html.Node` becomes a `Node` below, and the `parse`/`render` pair is
passed around as an explicit `Ext` record where the string-level API
needs it.  Go strings are byte sequences; we model them as Lean `String`
values read as plain sequences of code units (one `Char` per Go byte),
so `len`, slicing and offsets in the Go code correspond exactly to
`String.length`, `List.take`/`List.drop` on `String.data` and numeric
offsets here.
-/

namespace VcHtml

/-- Node kinds of the external tree model (`html.NodeType`). -/
inductive NKind where
  | document
  | element
  | text
  | comment
  | doctype
  deriving DecidableEq, Repr

/-- A parsed HTML node: `html.Node` with its kind (`Type`), `Data`
(tag name for elements, payload for text nodes), attribute list
(`Attr`) and the linked child list materialized as a `List`. -/
inductive Node where
  | mk (kind : NKind) (data : String) (attr : List (String × String))
      (children : List Node)

def Node.kind : Node → NKind
  | .mk k _ _ _ => k

def Node.data : Node → String
  | .mk _ d _ _ => d

def Node.attr : Node → List (String × String)
  | .mk _ _ a _ => a

def Node.children : Node → List Node
  | .mk _ _ _ c => c

/-- Operation kinds (`OpType` constants in the source). -/
inductive OpType where
  | insertNode
  | deleteNode
  | moveNode
  | updateAttr
  | updateText
  | insertText
  | deleteText
  deriving DecidableEq, Repr

/-- The literal string of each operation kind, as in the Go constants. -/
def opTypeName : OpType → String
  | .insertNode => "INSERT_NODE"
  | .deleteNode => "DELETE_NODE"
  | .moveNode => "MOVE_NODE"
  | .updateAttr => "UPDATE_ATTR"
  | .updateText => "UPDATE_TEXT"
  | .insertText => "INSERT_TEXT"
  | .deleteText => "DELETE_TEXT"

/-- `Operation` from the source.  `NodeData` is the HTML string of a
fragment in Go; since the external serializer/parser pair is out of
scope, the field carries the fragment already parsed (`ParseFragment`
output), which is how every use site consumes it: `Diff` stores the
rendering of exactly one node, and `Patch` parses the field back and
keeps only `nodes[0]`, treating an empty parse as a no-op.  `position`
is a Go `int`, hence `Int` here. -/
structure Operation where
  type : OpType
  path : List Nat
  key : String := ""
  oldValue : String := ""
  newValue : String := ""
  nodeData : List Node := []
  position : Int := 0

/-- `Delta` from the source. -/
structure Delta where
  baseHash : String
  operations : List Operation
  timestamp : Int := 0
  author : String := ""

/-- `Conflict` from the source. -/
structure Conflict where
  type : String
  description : String
  path : List Nat
  ops : List Operation

/-! ## Byte strings

Go text operations act on the byte string `node.Data`.  Strings are
modelled as sequences (one `Char` per byte), so Go's `len`, indexing
and slicing are `List.length`, `List.take` and `List.drop` on
`String.data`. -/

/-- Go `s[:pos] + ins + s[pos:]`. -/
def spliceIn (s : String) (pos : Nat) (ins : String) : String :=
  ⟨s.data.take pos ++ ins.data ++ s.data.drop pos⟩

/-- Go `s[:pos] + s[pos+len:]`. -/
def sliceOut (s : String) (pos len : Nat) : String :=
  ⟨s.data.take pos ++ s.data.drop (pos + len)⟩

/-- Go `s[pos : pos+len]`. -/
def substr (s : String) (pos len : Nat) : String :=
  ⟨(s.data.drop pos).take len⟩

/-- Byte length of a Go string. -/
def strLen (s : String) : Nat := s.data.length

/-! ## `hashString` (diff.go): SHA-256 of the raw document text,
hex-encoded.  `crypto/sha256` is Go library code; the function is
reproduced here over byte values carried as `Nat`. -/

def w32 : Nat := 4294967296

def rotr32 (x n : Nat) : Nat := ((x >>> n) ||| (x <<< (32 - n))) % w32

/-- The 64 round constants, in decimal. -/
def shaK : List Nat :=
  [1116352408, 1899447441, 3049323471, 3921009573, 961987163,
   1508970993, 2453635748, 2870763221, 3624381080, 310598401,
   607225278, 1426881987, 1925078388, 2162078206, 2614888103,
   3248222580, 3835390401, 4022224774, 264347078, 604807628,
   770255983, 1249150122, 1555081692, 1996064986, 2554220882,
   2821834349, 2952996808, 3210313671, 3336571891, 3584528711,
   113926993, 338241895, 666307205, 773529912, 1294757372,
   1396182291, 1695183700, 1986661051, 2177026350, 2456956037,
   2730485921, 2820302411, 3259730800, 3345764771, 3516065817,
   3600352804, 4094571909, 275423344, 430227734, 506948616,
   659060556, 883997877, 958139571, 1322822218, 1537002063,
   1747873779, 1955562222, 2024104815, 2227730452, 2361852424,
   2428436474, 2756734187, 3204031479, 3329325298]

/-- The 8 initial state words, in decimal. -/
def shaH0 : List Nat :=
  [1779033703, 3144134277, 1013904242, 2773480762,
   1359893119, 2600822924, 528734635, 1541459225]

/-- Split a byte list into the 32-bit big-endian words of one block. -/
def beWords : List Nat → List Nat
  | b0 :: b1 :: b2 :: b3 :: rest =>
      (((b0 * 256 + b1) * 256 + b2) * 256 + b3) :: beWords rest
  | _ => []

/-- Message schedule: extend 16 words to 64. -/
def shaExtend (w : List Nat) (t : Nat) : List Nat :=
  match t with
  | 0 => w
  | n + 1 =>
      let w' := shaExtend w n
      let i := w'.length
      let g := fun j => w'.getD j 0
      let s0 := (rotr32 (g (i - 15)) 7) ^^^ (rotr32 (g (i - 15)) 18) ^^^ ((g (i - 15)) >>> 3)
      let s1 := (rotr32 (g (i - 2)) 17) ^^^ (rotr32 (g (i - 2)) 19) ^^^ ((g (i - 2)) >>> 10)
      w' ++ [(g (i - 16) + s0 + g (i - 7) + s1) % w32]

/-- One compression round. -/
def shaRound (st : List Nat) (kw : Nat × Nat) : List Nat :=
  let a := st.getD 0 0
  let b := st.getD 1 0
  let c := st.getD 2 0
  let d := st.getD 3 0
  let e := st.getD 4 0
  let f := st.getD 5 0
  let g := st.getD 6 0
  let h := st.getD 7 0
  let s1 := (rotr32 e 6) ^^^ (rotr32 e 11) ^^^ (rotr32 e 25)
  let ch := (e &&& f) ^^^ ((w32 - 1 - e) &&& g)
  let t1 := (h + s1 + ch + kw.1 + kw.2) % w32
  let s0 := (rotr32 a 2) ^^^ (rotr32 a 13) ^^^ (rotr32 a 22)
  let mj := (a &&& b) ^^^ (a &&& c) ^^^ (b &&& c)
  let t2 := (s0 + mj) % w32
  [(t1 + t2) % w32, a, b, c, (d + t1) % w32, e, f, g]

/-- Compress one 64-byte block into the running state. -/
def shaBlock (st : List Nat) (block : List Nat) : List Nat :=
  let w := shaExtend (beWords block) 48
  let st' := (shaK.zip w).foldl shaRound st
  (st.zip st').map (fun p => (p.1 + p.2) % w32)

/-- Split into 64-byte blocks.  The fuel argument (instantiated with the
list length, an upper bound on the number of blocks) keeps the
recursion structural. -/
def chunks64Aux : Nat → List Nat → List (List Nat)
  | _, [] => []
  | 0, _ => []
  | fuel + 1, x :: xs => (x :: xs).take 64 :: chunks64Aux fuel ((x :: xs).drop 64)

def chunks64 (l : List Nat) : List (List Nat) := chunks64Aux l.length l

/-- SHA-256 padding: 0x80, zeros, 8-byte big-endian bit length. -/
def shaPad (msg : List Nat) : List Nat :=
  let len := msg.length
  let zeros := (64 - (len + 9) % 64) % 64
  let bitLen := len * 8
  msg ++ [0x80] ++ List.replicate zeros 0 ++
    (List.range 8).map (fun i => (bitLen >>> ((7 - i) * 8)) % 256)

def word2bytes (x : Nat) : List Nat :=
  [(x >>> 24) % 256, (x >>> 16) % 256, (x >>> 8) % 256, x % 256]

/-- SHA-256 digest (32 bytes) of a byte list. -/
def sha256 (msg : List Nat) : List Nat :=
  ((chunks64 (shaPad msg)).foldl shaBlock shaH0).flatMap word2bytes

def hexDigit (n : Nat) : Char :=
  if n < 10 then Char.ofNat (48 + n) else Char.ofNat (87 + n)

/-- Lowercase hex encoding (`encoding/hex`). -/
def hexEncode (bytes : List Nat) : String :=
  ⟨bytes.flatMap (fun b => [hexDigit (b / 16), hexDigit (b % 16)])⟩

/-- Bytes of a Go string under the byte-sequence convention. -/
def strBytes (s : String) : List Nat := s.data.map Char.toNat

/-- `hashString` (diff.go lines 45-49). -/
def hashString (s : String) : String := hexEncode (sha256 (strBytes s))

/-! ## Tree access (dom.go)

The Go tree is mutated in place through node pointers; here every
mutation is a functional update.  `updateAt` resolves a path exactly as
`GetNode` does and rebuilds the spine, which is the functional image of
"`GetNode` then mutate the node". -/

def Node.withChildren : Node → List Node → Node
  | .mk k d a _, c => .mk k d a c

def Node.withData : Node → String → Node
  | .mk k _ a c, d => .mk k d a c

def Node.withAttr : Node → List (String × String) → Node
  | .mk k d _ c, a => .mk k d a c

/-- `GetNode` (dom.go): walk the child list by index. -/
def getNode : Node → List Nat → Option Node
  | n, [] => some n
  | n, i :: rest =>
      match n.children[i]? with
      | some c => getNode c rest
      | none => none

/-- Resolve a path and apply a fallible update at the addressed node. -/
def updateAt : Node → List Nat → (Node → Except String Node) → Except String Node
  | n, [], f => f n
  | n, i :: rest, f =>
      match n.children[i]? with
      | some c =>
          match updateAt c rest f with
          | .ok c' => .ok (n.withChildren (n.children.set i c'))
          | .error e => .error e
      | none => .error "node not found"

/-- `getAttr` (patch.go): first matching attribute or `""`. -/
def getAttr (attrs : List (String × String)) (key : String) : String :=
  (((attrs.find? (fun a => a.1 = key)).map (fun a => a.2))).getD ""

/-- `setAttr` (patch.go): update the first matching attribute in place,
append if absent. -/
def setAttr : List (String × String) → String → String → List (String × String)
  | [], key, val => [(key, val)]
  | (k, v) :: rest, key, val =>
      if k = key then (k, val) :: rest else (k, v) :: setAttr rest key val

/-- `insertChildAt` (patch.go): `getChildAtIndex` finds the reference
sibling only when `0 ≤ index < len`; otherwise the child is appended. -/
def insertChildAt (children : List Node) (child : Node) (index : Int) : List Node :=
  if 0 ≤ index ∧ index.toNat < children.length then
    children.insertIdx index.toNat child
  else
    children ++ [child]

/-! ## Patch engine (patch.go) -/

/-- `applyOp` (patch.go).  `ParseFragment` output is carried pre-parsed
in `nodeData`; for INSERT_NODE the Go code resolves the parent, treats
an empty parse as a no-op (`return nil` before any mutation) and
otherwise inserts `nodes[0]`.  For DELETE_NODE the node itself is
resolved, the root (the only parentless node) is rejected, and the node
is detached from its parent's child list. -/
def applyOp (root : Node) (op : Operation) : Except String Node :=
  match op.type with
  | .updateText =>
      updateAt root op.path (fun node =>
        if node.kind ≠ .text then
          .error "target node for UPDATE_TEXT is not a text node"
        else if node.data ≠ op.oldValue then
          .error ("UPDATE_TEXT old value mismatch: want '" ++ op.oldValue ++
                  "', got '" ++ node.data ++ "'")
        else
          .ok (node.withData op.newValue))
  | .insertText =>
      updateAt root op.path (fun node =>
        if node.kind ≠ .text then
          .error "target node for INSERT_TEXT is not a text node"
        else if op.position < 0 ∨ op.position > (strLen node.data : Int) then
          .error "INSERT_TEXT position out of bounds"
        else
          .ok (node.withData (spliceIn node.data op.position.toNat op.newValue)))
  | .deleteText =>
      updateAt root op.path (fun node =>
        if node.kind ≠ .text then
          .error "target node for DELETE_TEXT is not a text node"
        else
          let deleteLen := strLen op.oldValue
          if op.position < 0 ∨ op.position + (deleteLen : Int) > (strLen node.data : Int) then
            .error "DELETE_TEXT position out of bounds"
          else if substr node.data op.position.toNat deleteLen ≠ op.oldValue then
            .error "DELETE_TEXT old value mismatch"
          else
            .ok (node.withData (sliceOut node.data op.position.toNat deleteLen)))
  | .updateAttr =>
      updateAt root op.path (fun node =>
        if node.kind ≠ .element then
          .error "target node for UPDATE_ATTR is not an element node"
        else
          .ok (node.withAttr (setAttr node.attr op.key op.newValue)))
  | .insertNode =>
      match getNode root op.path with
      | none => .error "node not found"
      | some _ =>
          match op.nodeData with
          | [] => .ok root
          | newNode :: _ =>
              updateAt root op.path (fun parent =>
                .ok (parent.withChildren (insertChildAt parent.children newNode op.position)))
  | .deleteNode =>
      match getNode root op.path with
      | none => .error "node not found"
      | some _ =>
          match op.path with
          | [] => .error "cannot delete root node or orphan"
          | _ :: _ =>
              updateAt root op.path.dropLast (fun parent =>
                .ok (parent.withChildren (parent.children.eraseIdx (op.path.getLast?.getD 0))))
  | .moveNode => .error ("unknown operation type: " ++ opTypeName op.type)

/-- The operation loop of `Patch`, with the index used in the error
wrapper `failed to apply op %d (%s)`. -/
def runOps : Node → List Operation → Nat → Except String Node
  | root, [], _ => .ok root
  | root, op :: rest, i =>
      match applyOp root op with
      | .ok r => runOps r rest (i + 1)
      | .error e =>
          .error ("failed to apply op " ++ toString i ++ " (" ++
                  opTypeName op.type ++ "): " ++ e)

/-- Index-free application (`runOps` differs only in error text). -/
def applyAll (root : Node) (ops : List Operation) : Except String Node :=
  ops.foldlM applyOp root

/-- The external parser/serializer interface (`ParseHTML`/`RenderNode`
defer to golang.org/x/net/html, which is out of scope). -/
structure Ext where
  parse : String → Except String Node
  render : Node → Except String String

/-- `Patch` (patch.go lines 12-31): verify the hash, parse, apply each
operation in order, re-render. -/
def Patch (E : Ext) (baseHTML : String) (delta : Delta) : Except String String :=
  let currentHash := hashString baseHTML
  if currentHash ≠ delta.baseHash then
    .error ("base hash mismatch: expected " ++ delta.baseHash ++ ", got " ++ currentHash)
  else
    match E.parse baseHTML with
    | .error e => .error e
    | .ok doc =>
        match runOps doc delta.operations 0 with
        | .error e => .error e
        | .ok doc' => E.render doc'

/-! ## Diff engine (diff.go)

`diffAttributes` builds one Go map per side and iterates the maps.  A
Go map holds each key once with the last inserted value and iterates in
an unspecified order; the model keeps each key's last value
(`attrLookup`) and fixes first-appearance order (`keyList`), one of the
admissible orders (the spec leaves attribute-op order unspecified). -/

/-- Keys of an attribute list, each once, in first-appearance order. -/
def keyList : List (String × String) → List String
  | [] => []
  | (k, _) :: rest => k :: (keyList rest).filter (fun k' => k' ≠ k)

/-- Go-map lookup over an attribute list: last inserted value wins. -/
def attrLookup (attrs : List (String × String)) (k : String) : Option String :=
  (attrs.reverse.find? (fun a => a.1 = k)).map (fun a => a.2)

/-- `diffAttributes` (diff.go): common keys with changed values become
UPDATE_ATTR with old and new value; keys only in `new` become
UPDATE_ATTR with only the new value; keys only in `old` produce no
operation (attribute removal is a known gap in the source). -/
def diffAttributes (o n : Node) (path : List Nat) : List Operation :=
  (keyList o.attr).filterMap (fun k =>
    match attrLookup o.attr k, attrLookup n.attr k with
    | some vOld, some vNew =>
        if vOld ≠ vNew then
          some { type := .updateAttr, path := path, key := k,
                 oldValue := vOld, newValue := vNew }
        else none
    | _, _ => none)
  ++ (keyList n.attr).filterMap (fun k =>
    match attrLookup o.attr k, attrLookup n.attr k with
    | none, some vNew =>
        some { type := .updateAttr, path := path, key := k, newValue := vNew }
    | _, _ => none)

/-- The deletion loop of `diffChildren` (diff.go lines 212-220):
`for i := len(old)-1; i >= commonLen; i--` emits DELETE_NODE at
`parentPath ++ [i]`, descending. -/
def deleteRange (p : List Nat) (m len : Nat) : List Operation :=
  ((List.range' m (len - m)).reverse).map
    (fun i => { type := .deleteNode, path := p ++ [i] })

/-- The insertion loop of `diffChildren` (diff.go lines 223-235):
ascending positions from `commonLen`; `nodeData` carries the fragment
`RenderNode(newChildren[i])` pre-parsed, which is the single node
itself. -/
def insertRange (p : List Nat) : Nat → List Node → List Operation
  | _, [] => []
  | i, c :: cs =>
      { type := .insertNode, path := p, nodeData := [c], position := (i : Int) }
        :: insertRange p (i + 1) cs

mutual

/-- `diffNodes` (diff.go lines 53-102).  The type/tag-mismatch branch
in the source is an empty block (structural replacement is
unimplemented), so it is omitted.  The body of `diffChildren`
(index-aligned recursion via `diffCommon`, then descending deletions,
then ascending insertions) is inlined so that the mutual recursion
stays structural. -/
def diffNodes : Node → Node → List Nat → List Operation
  | .mk k d a cs, n, path =>
      (if k = .element then diffAttributes (.mk k d a cs) n path else [])
      ++ (if k = .text ∧ d ≠ n.data then
            [{ type := .updateText, path := path, oldValue := d, newValue := n.data }]
          else [])
      ++ (diffCommon cs n.children path 0
          ++ deleteRange path (min cs.length n.children.length) cs.length
          ++ insertRange path (min cs.length n.children.length)
               (n.children.drop (min cs.length n.children.length)))

/-- The index-aligned recursion of `diffChildren` over the common
child range (`for i in 0..commonLen`). -/
def diffCommon : List Node → List Node → List Nat → Nat → List Operation
  | a :: as, b :: bs, p, i => diffNodes a b (p ++ [i]) ++ diffCommon as bs p (i + 1)
  | _, _, _, _ => []

end

/-- `diffChildren` (diff.go lines 184-238) as a wrapper over the parts
inlined in `diffNodes`. -/
def diffChildren (oldC newC : List Node) (parentPath : List Nat) : List Operation :=
  diffCommon oldC newC parentPath 0
  ++ deleteRange parentPath (min oldC.length newC.length) oldC.length
  ++ insertRange parentPath (min oldC.length newC.length)
       (newC.drop (min oldC.length newC.length))

/-- `Diff` (diff.go lines 13-43): parse both sides, hash the raw old
text, and walk the trees from the root with the empty path.  The
timestamp (`time.Now`) is environmental and modelled as 0. -/
def Diff (E : Ext) (oldHTML newHTML author : String) : Except String Delta :=
  match E.parse oldHTML with
  | .error e => .error e
  | .ok oldDoc =>
      match E.parse newHTML with
      | .error e => .error e
      | .ok newDoc =>
          .ok { baseHash := hashString oldHTML,
                operations := diffNodes oldDoc newDoc [],
                author := author }

/-! ## Merge engine (merge.go) -/

/-- `strings.Trim(fmt.Sprint(op.Path), "[]")`: `fmt.Sprint` of an int
slice is the space-separated entries in brackets, and the trim strips
the brackets, so the result is the space-separated entries. -/
def pathString (p : List Nat) : String :=
  String.intercalate " " (p.map toString)

/-- `fmt.Sprint` of a path, used in conflict descriptions. -/
def fmtPath (p : List Nat) : String := "[" ++ pathString p ++ "]"

/-- `pathKey` (merge.go lines 182-201). -/
def pathKey (op : Operation) : String :=
  let s := pathString op.path
  if op.type = .insertNode then
    s ++ ":I:" ++ toString op.position
  else if op.type = .insertText ∨ op.type = .deleteText then
    s ++ ":T:" ++ toString op.position ++ ":" ++ op.newValue ++ ":" ++ op.oldValue
  else
    s

/-- One Go map insertion: replace the value at an existing key or add
the binding. -/
def mapInsert : List (String × Operation) → String → Operation → List (String × Operation)
  | [], k, v => [(k, v)]
  | (k', v') :: rest, k, v =>
      if k' = k then (k, v) :: rest else (k', v') :: mapInsert rest k v

/-- The `mapA` built by `detectConflicts`: every op of A inserted under
its `pathKey`, later ops overwriting earlier ones with the same key. -/
def buildMapA (ops : List Operation) : List (String × Operation) :=
  ops.foldl (fun m op => mapInsert m (pathKey op) op) []

/-- Go map lookup. -/
def mapFind (m : List (String × Operation)) (k : String) : Option Operation :=
  (m.find? (fun e => e.1 = k)).map (fun e => e.2)

/-- The characterisation of a Go map built by forward insertion: the
binding for `k` is the last op with that key. -/
def lastWithKey (ops : List Operation) (k : String) : Option Operation :=
  ops.reverse.find? (fun op => pathKey op = k)

/-- `isConflict` (merge.go lines 138-180).  The final
INSERT_NODE/INSERT_NODE branch of the source returns `false` on every
path and is collapsed into the default. -/
def isConflict (a b : Operation) : Bool :=
  if a.type = .deleteNode ∨ b.type = .deleteNode then
    ¬(a.type = .deleteNode ∧ b.type = .deleteNode)
  else if a.type = .updateText ∧ b.type = .updateText then
    a.newValue ≠ b.newValue
  else if (a.type = .insertText ∨ a.type = .deleteText) ∧
          (b.type = .insertText ∨ b.type = .deleteText) then
    false
  else if (a.type = .updateText ∧ (b.type = .insertText ∨ b.type = .deleteText)) ∨
          (b.type = .updateText ∧ (a.type = .insertText ∨ a.type = .deleteText)) then
    true
  else if a.type = .updateAttr ∧ b.type = .updateAttr then
    (if a.key = b.key then a.newValue ≠ b.newValue else false)
  else
    false

/-- `isDescendant` (merge.go lines 203-213): `child` strictly longer
and agreeing with `ancestor` on its whole length. -/
def isDescendant (ancestor child : List Nat) : Bool :=
  if child.length ≤ ancestor.length then false
  else child.take ancestor.length = ancestor

/-- `detectConflicts` (merge.go lines 92-136): for each op of B, first
the map-based Direct check against A, then the two Structure checks
against every op of A. -/
def detectConflicts (opsA opsB : List Operation) : List Conflict :=
  let mA := buildMapA opsA
  opsB.flatMap (fun opB =>
    (match mapFind mA (pathKey opB) with
     | some opA =>
         if isConflict opA opB then
           [{ type := "Direct",
              description := "Conflict on node " ++ fmtPath opB.path ++ ": " ++
                             opTypeName opA.type ++ " vs " ++ opTypeName opB.type,
              path := opB.path, ops := [opA, opB] }]
         else []
     | none => [])
    ++ opsA.flatMap (fun opA =>
        (if opA.type = .deleteNode ∧ isDescendant opA.path opB.path then
           [{ type := "Structure", description := "Modification of deleted node",
              path := opB.path, ops := [opA, opB] }]
         else [])
        ++ (if opB.type = .deleteNode ∧ isDescendant opB.path opA.path then
              [{ type := "Structure", description := "Modification of deleted node",
                 path := opA.path, ops := [opA, opB] }]
            else [])))

/-- `isSiblingAffected` (merge.go lines 321-334). -/
def isSiblingAffected (parent : List Nat) (index : Int) (target : List Nat) : Bool :=
  if target.length ≤ parent.length then false
  else if target.take parent.length ≠ parent then false
  else (target.getD parent.length 0 : Int) ≥ index

/-- Bump the path entry at position `i` by one (`newB.Path[len]++`). -/
def pathInc (p : List Nat) (i : Nat) : List Nat := p.set i (p.getD i 0 + 1)

/-- Drop the path entry at position `i` by one (`newB.Path[len]--`;
only reached under `delIndex < idx`, so the entry is positive). -/
def pathDec (p : List Nat) (i : Nat) : List Nat := p.set i (p.getD i 0 - 1)

/-- `transformOp` (merge.go lines 215-307): rewrite `b` so that it can
run after `a`.  The Go error channel is never used (every return is
`(ops, nil)`), so the result is just the op list.  For a DELETE_NODE
`a` with an empty path the source would panic on `a.Path[len-1]`; that
case is unreachable from `Diff` output and modelled with the default
value 0. -/
def transformOp (b a : Operation) : List Operation :=
  if (a.type = .insertText ∨ a.type = .deleteText) ∧ b.path = a.path then
    if a.type = .insertText then
      if b.position ≥ a.position then
        [{ b with position := b.position + (strLen a.newValue : Int) }]
      else [b]
    else
      let delLen : Int := (strLen a.oldValue : Int)
      let aEnd := a.position + delLen
      if b.position ≥ aEnd then
        [{ b with position := b.position - delLen }]
      else if b.position ≥ a.position then
        if b.type = .insertText then
          [{ b with position := a.position }]
        else if b.type = .deleteText then
          []
        else [b]
      else
        if b.type = .deleteText ∧ b.position + (strLen b.oldValue : Int) > a.position then
          []
        else [b]
  else if a.type = .insertNode then
    (if b.path = a.path then
       if a.position ≤ b.position then [{ b with position := b.position + 1 }] else [b]
     else if isSiblingAffected a.path a.position b.path then
       if a.position ≤ (b.path.getD a.path.length 0 : Int) then
         [{ b with path := pathInc b.path a.path.length }]
       else [b]
     else [b])
  else if a.type = .deleteNode then
    (let parentPath := a.path.dropLast
     let delIndex := a.path.getLast?.getD 0
     if b.path = parentPath then
       if (delIndex : Int) < b.position then [{ b with position := b.position - 1 }] else [b]
     else if isSiblingAffected parentPath (delIndex : Int) b.path then
       if delIndex < b.path.getD parentPath.length 0 then
         [{ b with path := pathDec b.path parentPath.length }]
       else [b]
     else [b])
  else [b]

/-- The transform loop of `Merge` (merge.go lines 30-46): each op of B
is folded through every op of A, and a transform may expand an op into
zero or more ops. -/
def transformAgainst (opB : Operation) (opsA : List Operation) : List Operation :=
  opsA.foldl (fun curr opA => curr.flatMap (fun c => transformOp c opA)) [opB]

/-- The four return values of Go `Merge`; nil pointers and nil errors
become `none`. -/
structure MergeResult where
  html : String
  delta : Option Delta
  conflicts : List Conflict
  err : Option String

/-- `Merge` (merge.go lines 10-60). -/
def Merge (E : Ext) (baseHTML : String) (deltaA deltaB : Delta) : MergeResult :=
  let baseHash := hashString baseHTML
  if deltaA.baseHash ≠ baseHash ∨ deltaB.baseHash ≠ baseHash then
    { html := "", delta := none, conflicts := [], err := some "base hash mismatch" }
  else
    let conflicts := detectConflicts deltaA.operations deltaB.operations
    if conflicts.length > 0 then
      { html := "", delta := none, conflicts := conflicts, err := none }
    else
      let opsA := deltaA.operations
      let opsBTransformed := deltaB.operations.flatMap (fun opB => transformAgainst opB opsA)
      let mergedDelta : Delta :=
        { baseHash := baseHash, operations := opsA ++ opsBTransformed,
          author := "system-merge", timestamp := deltaA.timestamp }
      match Patch E baseHTML mergedDelta with
      | .ok patched => { html := patched, delta := some mergedDelta, conflicts := [], err := none }
      | .error e => { html := "", delta := some mergedDelta, conflicts := [], err := some e }

/-! ## A sample serializer

Counterexamples need to exhibit two documents that render to different
text.  `sampleRender` is a concrete deterministic serializer playing
the role of the external `RenderNode` in those instantiations. -/

mutual

def sampleRender : Node → String
  | .mk k d a cs =>
      match k with
      | .text => d
      | .element =>
          "<" ++ d ++ ((a.map (fun kv => " " ++ kv.1 ++ "=" ++ kv.2)).foldl (· ++ ·) "")
            ++ ">" ++ sampleRenderList cs ++ "</" ++ d ++ ">"
      | _ => sampleRenderList cs

def sampleRenderList : List Node → String
  | [] => ""
  | c :: cs => sampleRender c ++ sampleRenderList cs

end

/-- A concrete `Ext` whose parser returns a fixed tree; counterexample
and witness instantiations use it. -/
def fixedExt (t : Node) : Ext :=
  { parse := fun _ => .ok t, render := fun n => .ok (sampleRender n) }

/-- A concrete `Ext` whose parser distinguishes two inputs: `"old"`
parses to `t1`, anything else to `t2`. -/
def twoDocExt (t1 t2 : Node) : Ext :=
  { parse := fun s => if s = "old" then .ok t1 else .ok t2,
    render := fun n => .ok (sampleRender n) }

/-! ## Specification-level predicates

These express the spec's comparison notions; they are used only in
theorem statements, never inside the embedded algorithms. -/

/-- Two attribute lists denote the same attribute map: every key of
either side looks up to the same value on both sides (the spec's
"modulo attribute order"). -/
def attrsEquiv (a b : List (String × String)) : Bool :=
  (keyList a ++ keyList b).all (fun k => attrLookup a k = attrLookup b k)

/-- No attribute key occurs twice (the external parser deduplicates
attributes). -/
def nodupKeys : List (String × String) → Bool
  | [] => true
  | (k, _) :: rest => rest.all (fun kv => kv.1 ≠ k) && nodupKeys rest

/-- Every key of `a` is present in `b`. -/
def keysSub (a b : List (String × String)) : Bool :=
  a.all (fun kv => (attrLookup b kv.1).isSome)

mutual

/-- The aligned pair (old, new) is within the territory the diff engine
actually covers: lockstep-aligned nodes have the same kind, elements
keep their tag, no attribute disappears (attribute removal is the
acknowledged gap), attribute keys are duplicate-free as the parser
guarantees, non-element non-text data is unchanged (such nodes are
traversed as opaque), and the same holds for each index-aligned pair of
children.  Extra children on either side are unconstrained. -/
def compat : Node → Node → Bool
  | .mk k d a cs, n =>
      decide (k = n.kind) &&
      (match k with
       | .element =>
           decide (d = n.data) && keysSub a n.attr && nodupKeys a && nodupKeys n.attr
       | .text => decide (a = n.attr)
       | _ => decide (d = n.data) && decide (a = n.attr)) &&
      compatList cs n.children

def compatList : List Node → List Node → Bool
  | x :: xs, y :: ys => compat x y && compatList xs ys
  | _, _ => true

end

mutual

/-- Semantic document equivalence: same tree shape and data, attribute
lists equal as maps (order-insensitive). -/
def nodeEquiv : Node → Node → Bool
  | .mk k d a cs, n =>
      decide (k = n.kind) && decide (d = n.data) && attrsEquiv a n.attr &&
      nodeEquivList cs n.children

def nodeEquivList : List Node → List Node → Bool
  | [], [] => true
  | x :: xs, y :: ys => nodeEquiv x y && nodeEquivList xs ys
  | _, _ => false

end

/-- Prepend a base path to an operation's path. -/
def shiftOp (p : List Nat) (op : Operation) : Operation :=
  { op with path := p ++ op.path }

def shiftOps (p : List Nat) (ops : List Operation) : List Operation :=
  ops.map (shiftOp p)

/-- Total functional replacement of the subtree addressed by a path
(no-op on a dangling path); the successful case of `updateAt` lands in
this form. -/
def replaceAt : Node → List Nat → Node → Node
  | _, [], y => y
  | n, i :: rest, y =>
      match n.children[i]? with
      | some c => n.withChildren (n.children.set i (replaceAt c rest y))
      | none => n

/-- The html field Go `Merge` ends up returning for a given
`Patch`/render outcome: the rendered text on success, `""` on error. -/
def renderHtml : Except String String → String
  | .ok s => s
  | .error _ => ""

/-- The error field for a given `Patch`/render outcome. -/
def renderErr : Except String String → Option String
  | .ok _ => none
  | .error e => some e

/-- The ordering discipline of a diff-produced operation list: any
earlier DELETE_NODE sharing a parent with a later one carries the
larger child index, and any earlier INSERT_NODE sharing a parent with a
later one carries the smaller target position. -/
def diffOpOrder (o1 o2 : Operation) : Prop :=
  (o1.type = .deleteNode → o2.type = .deleteNode →
     o1.path.dropLast = o2.path.dropLast →
     o2.path.getLast?.getD 0 < o1.path.getLast?.getD 0)
  ∧ (o1.type = .insertNode → o2.type = .insertNode → o1.path = o2.path →
     o1.position < o2.position)

/-! # Theorems -/

@[simp] theorem Node.kind_mk (k d a c) : (Node.mk k d a c).kind = k := rfl
@[simp] theorem Node.data_mk (k d a c) : (Node.mk k d a c).data = d := rfl
@[simp] theorem Node.attr_mk (k d a c) : (Node.mk k d a c).attr = a := rfl
@[simp] theorem Node.children_mk (k d a c) : (Node.mk k d a c).children = c := rfl

@[simp] theorem Node.withChildren_mk (k d a c c') :
    (Node.mk k d a c).withChildren c' = .mk k d a c' := rfl

@[simp] theorem Node.withData_mk (k d a c d') :
    (Node.mk k d a c).withData d' = .mk k d' a c := rfl

@[simp] theorem Node.withAttr_mk (k d a c a') :
    (Node.mk k d a c).withAttr a' = .mk k d a' c := rfl

theorem Node.withChildren_self (n : Node) : n.withChildren n.children = n := by
  cases n; rfl

/-- Claim C2: the specification says that for aligned Text nodes with
differing payloads the diff engine runs the prefix/suffix text diff and
emits DELETE_TEXT then INSERT_TEXT at that node's path.  The code at
diff.go lines 82-92 instead emits a single atomic UPDATE_TEXT carrying
both full payloads.  Failing input: old text node `Hello Old World`
aligned with new text node `Hello New World` (common prefix 6, common
suffix 6): the claim requires `DELETE_TEXT(pos=6, old="Old")` followed
by `INSERT_TEXT(pos=6, new="New")`, but `diffNodes` produces exactly
one UPDATE_TEXT operation.  This contradicts the repository's own
tests (`TestMergeTextConflict` et al. require granular text ops from
`Diff`) and its README, so the code, not the spec, is at fault. -/
theorem C2_diff_emits_atomic_update_text :
    diffNodes (.mk .text "Hello Old World" [] []) (.mk .text "Hello New World" [] []) [0, 0]
      = [{ type := .updateText, path := [0, 0],
           oldValue := "Hello Old World", newValue := "Hello New World" }] := by
  rfl

/-- Claim C3: a base-hash mismatch makes `Patch` fail with the
base-hash-mismatch error before parsing the base or touching any
operation.  The theorem quantifies over every external parser/renderer
`E`, so the outcome provably does not depend on parsing, and the error
return carries no partial result. -/
theorem C3_patch_base_hash_mismatch (E : Ext) (base : String) (delta : Delta)
    (h : hashString base ≠ delta.baseHash) :
    Patch E base delta =
      .error ("base hash mismatch: expected " ++ delta.baseHash ++ ", got " ++ hashString base) := by
  simp only [Patch]
  rw [if_pos h]

/-- Claim C3 witness: a concrete base and delta whose stored hash `""`
cannot match (a SHA-256 hex digest is never empty). -/
theorem C3_patch_base_hash_mismatch_witness :
    hashString "<p>Hi</p>" ≠ "" ∧
    Patch (fixedExt (.mk .document "" [] [])) "<p>Hi</p>"
        { baseHash := "", operations := [] }
      = .error ("base hash mismatch: expected " ++ "" ++ ", got " ++ hashString "<p>Hi</p>") :=
  have h : hashString "<p>Hi</p>" ≠ "" := by decide
  ⟨h, C3_patch_base_hash_mismatch _ _ _ h⟩

/-- Claim C6: when both deltas carry the base's hash and conflict
detection is non-empty, `Merge` returns exactly the conflict list
together with an empty merged document, no merged delta and no error,
applying nothing. -/
theorem C6_merge_reports_conflicts (E : Ext) (base : String) (dA dB : Delta)
    (hA : dA.baseHash = hashString base) (hB : dB.baseHash = hashString base)
    (hc : detectConflicts dA.operations dB.operations ≠ []) :
    Merge E base dA dB =
      { html := "", delta := none,
        conflicts := detectConflicts dA.operations dB.operations, err := none } := by
  simp only [Merge]
  rw [if_neg (by simp [hA, hB])]
  rw [if_pos (List.length_pos.mpr hc)]

/-- Claim C6 witness: two atomic text replacements of the same node
with different new values conflict, and `Merge` reports them with empty
output and no error. -/
theorem C6_merge_reports_conflicts_witness :
    Merge (fixedExt (.mk .document "" [] [])) "b"
        { baseHash := hashString "b",
          operations := [{ type := .updateText, path := [0], oldValue := "t", newValue := "A" }] }
        { baseHash := hashString "b",
          operations := [{ type := .updateText, path := [0], oldValue := "t", newValue := "B" }] }
      = { html := "", delta := none,
          conflicts := detectConflicts
            [{ type := .updateText, path := [0], oldValue := "t", newValue := "A" }]
            [{ type := .updateText, path := [0], oldValue := "t", newValue := "B" }],
          err := none } :=
  C6_merge_reports_conflicts _ _ _ _ rfl rfl
    (fun h => absurd (congrArg List.length h) (by decide))

/-- Claim C7: the text-level transform rules of `transformOp` for an
operation `b` (INSERT_TEXT or DELETE_TEXT) rebased over `a` on the
same text node: an insert by `a` at or before `b` shifts `b` right by
the inserted length (ties shift right); a delete by `a` entirely
before `b` shifts `b` left by the deleted length; a DELETE_TEXT `b`
overlapping `a`'s deleted range from the right or from the left is
dropped; an INSERT_TEXT `b` inside `a`'s deleted range is clamped to
the deletion point. -/
theorem C7_transform_text_rules (a b : Operation)
    (hpath : b.path = a.path)
    (_hbt : b.type = .insertText ∨ b.type = .deleteText) :
    (a.type = .insertText → a.position ≤ b.position →
       transformOp b a = [{ b with position := b.position + (strLen a.newValue : Int) }])
  ∧ (a.type = .deleteText → a.position + (strLen a.oldValue : Int) ≤ b.position →
       transformOp b a = [{ b with position := b.position - (strLen a.oldValue : Int) }])
  ∧ (a.type = .deleteText → b.type = .deleteText →
       a.position ≤ b.position → b.position < a.position + (strLen a.oldValue : Int) →
       transformOp b a = [])
  ∧ (a.type = .deleteText → b.type = .deleteText →
       b.position < a.position → a.position < b.position + (strLen b.oldValue : Int) →
       transformOp b a = [])
  ∧ (a.type = .deleteText → b.type = .insertText →
       a.position ≤ b.position → b.position < a.position + (strLen a.oldValue : Int) →
       transformOp b a = [{ b with position := a.position }]) := by
  refine ⟨?_, ?_, ?_, ?_, ?_⟩
  · intro ha hge
    simp [transformOp, hpath, ha, ge_iff_le, hge]
  · intro ha hge
    have h1 : a.type ≠ .insertText := by simp [ha]
    simp [transformOp, hpath, ha, h1, ge_iff_le, hge]
  · intro ha hb hge hlt
    have h1 : a.type ≠ .insertText := by simp [ha]
    have h2 : ¬(a.position + (strLen a.oldValue : Int) ≤ b.position) := by omega
    have h3 : b.type ≠ .insertText := by simp [hb]
    simp [transformOp, hpath, ha, h1, hb, h3, ge_iff_le, hge, h2]
  · intro ha hb hlt hover
    have h1 : a.type ≠ .insertText := by simp [ha]
    have h2 : ¬(a.position + (strLen a.oldValue : Int) ≤ b.position) := by omega
    have h3 : ¬(a.position ≤ b.position) := by omega
    simp [transformOp, hpath, ha, h1, hb, ge_iff_le, h2, h3, hover]
  · intro ha hb hge hlt
    have h1 : a.type ≠ .insertText := by simp [ha]
    have h2 : ¬(a.position + (strLen a.oldValue : Int) ≤ b.position) := by omega
    simp [transformOp, hpath, ha, h1, hb, ge_iff_le, hge, h2]

/-- Claim C7 witness: `a` deletes the 2 bytes at offset 2, `b` inserts
inside that range at offset 3, and the transform clamps `b` to
offset 2. -/
theorem C7_transform_text_rules_witness :
    transformOp
        { type := .insertText, path := [0, 1], newValue := "Q", position := 3 }
        { type := .deleteText, path := [0, 1], oldValue := "xy", position := 2 }
      = [{ type := .insertText, path := [0, 1], newValue := "Q", position := 2 }] :=
  (C7_transform_text_rules
      { type := .deleteText, path := [0, 1], oldValue := "xy", position := 2 }
      { type := .insertText, path := [0, 1], newValue := "Q", position := 3 }
      rfl (Or.inl rfl)).2.2.2.2 rfl rfl (by decide) (by decide)

/-! ## The collision map of `detectConflicts` -/

theorem mapFind_mapInsert (m : List (String × Operation)) (k' k : String) (v : Operation) :
    mapFind (mapInsert m k' v) k = if k' = k then some v else mapFind m k := by
  induction m with
  | nil => by_cases h : k' = k <;> simp [mapInsert, mapFind, List.find?, h]
  | cons e rest ih =>
      obtain ⟨ek, ev⟩ := e
      by_cases h1 : ek = k'
      · subst h1
        by_cases h2 : ek = k <;> simp [mapInsert, mapFind, List.find?, h2]
      · by_cases h2 : ek = k
        · subst h2
          have : ¬(k' = ek) := fun h => h1 h.symm
          simp [mapInsert, h1, mapFind, List.find?, this]
        · simp only [mapInsert, if_neg h1]
          have := ih
          simp [mapFind, List.find?, h2] at this ⊢
          exact this

theorem lastWithKey_cons (op : Operation) (rest : List Operation) (k : String) :
    lastWithKey (op :: rest) k
      = (lastWithKey rest k).or (if pathKey op = k then some op else none) := by
  simp only [lastWithKey, List.reverse_cons, List.find?_append]
  cases h : List.find? (fun o => pathKey o = k) rest.reverse <;>
    by_cases hk : pathKey op = k <;> simp [List.find?, hk, Option.or]

/-- The Go map built by `detectConflicts` holds, for every key, the
last operation of A with that key. -/
theorem mapFind_buildMapA (ops : List Operation) (k : String) :
    mapFind (buildMapA ops) k = lastWithKey ops k := by
  suffices h : ∀ m0 : List (String × Operation),
      mapFind (ops.foldl (fun m op => mapInsert m (pathKey op) op) m0) k
        = (lastWithKey ops k).or (mapFind m0 k) by
    have := h []
    simpa [buildMapA, mapFind, List.find?] using this
  induction ops with
  | nil => intro m0; simp [lastWithKey, Option.or]
  | cons op rest ih =>
      intro m0
      simp only [List.foldl_cons]
      rw [ih, lastWithKey_cons, mapFind_mapInsert]
      cases h : lastWithKey rest k <;> by_cases hk : pathKey op = k <;>
        simp [Option.or, hk]

/-! ## Membership in `detectConflicts` -/

/-- Completeness of the Direct check: an op of B whose key's (unique)
surviving map entry conflicts with it is reported. -/
theorem direct_conflict_mem (opsA opsB : List Operation) (a b : Operation)
    (hb : b ∈ opsB)
    (hfind : mapFind (buildMapA opsA) (pathKey b) = some a)
    (hconf : isConflict a b = true) :
    ({ type := "Direct",
       description := "Conflict on node " ++ fmtPath b.path ++ ": " ++
                      opTypeName a.type ++ " vs " ++ opTypeName b.type,
       path := b.path, ops := [a, b] } : Conflict) ∈ detectConflicts opsA opsB := by
  unfold detectConflicts
  refine List.mem_flatMap.mpr ⟨b, hb, ?_⟩
  rw [hfind]
  simp [hconf]

/-- Soundness of shapes: every Direct conflict pairs some op of B with
the map entry surviving under that op's key. -/
theorem direct_conflict_shape (opsA opsB : List Operation) (c : Conflict)
    (hc : c ∈ detectConflicts opsA opsB) (hd : c.type = "Direct") :
    ∃ a b, c.ops = [a, b] ∧ b ∈ opsB ∧
      lastWithKey opsA (pathKey b) = some a ∧ isConflict a b = true := by
  unfold detectConflicts at hc
  obtain ⟨b, hb, hcb⟩ := List.mem_flatMap.mp hc
  rcases List.mem_append.mp hcb with h1 | h2
  · split at h1
    · next a hfind =>
        split at h1
        · next hconf =>
            simp only [List.mem_singleton] at h1
            subst h1
            exact ⟨a, b, rfl, hb, by rw [← mapFind_buildMapA, hfind], hconf⟩
        · simp at h1
    · simp at h1
  · exfalso
    obtain ⟨a, _ha, hca⟩ := List.mem_flatMap.mp h2
    rcases List.mem_append.mp hca with h3 | h3 <;>
    · split at h3
      · simp only [List.mem_singleton] at h3
        subst h3
        exact (by decide : ("Structure" : String) ≠ "Direct") hd
      · simp at h3

/-- Claim C5 counterexample: the claim says DELETE_NODE versus any
operation of a different kind on the same node is reported as a Direct
conflict.  For a DELETE_NODE at path `[0]` against an INSERT_TEXT at
the same path `[0]`, `pathKey` gives `"0"` for the delete but
`"0:T:0:x:"` for the text op, the collision-map lookup misses, equal
paths are not a Structure descendant relation, and detection returns
no conflict in either direction. -/
theorem C5_counterexample :
    detectConflicts
        [{ type := .deleteNode, path := [0] }]
        [{ type := .insertText, path := [0], newValue := "x", position := 0 }] = []
  ∧ detectConflicts
        [{ type := .insertText, path := [0], newValue := "x", position := 0 }]
        [{ type := .deleteNode, path := [0] }] = [] := by
  constructor <;> rfl

/-- Claim C5 (amended): whenever one party has a DELETE_NODE on a node
and the other party has an operation of a different kind addressing the
same node through the same collision-map key — which happens exactly
when the colliding operations key by the bare path, so not for
INSERT_NODE/INSERT_TEXT/DELETE_TEXT counterparts, whose keys carry
extra components — and that entry survives as the last of A's
operations with that key, a Direct conflict for that pair is reported;
and two DELETE_NODE operations on the same node are never reported as
a conflict (single-op deltas shown). -/
theorem C5_delete_conflict_amended :
    (∀ (opsA opsB : List Operation) (a b : Operation), b ∈ opsB →
       lastWithKey opsA (pathKey b) = some a →
       (a.type = .deleteNode ∨ b.type = .deleteNode) →
       ¬(a.type = .deleteNode ∧ b.type = .deleteNode) →
       ({ type := "Direct",
          description := "Conflict on node " ++ fmtPath b.path ++ ": " ++
                         opTypeName a.type ++ " vs " ++ opTypeName b.type,
          path := b.path, ops := [a, b] } : Conflict) ∈ detectConflicts opsA opsB)
  ∧ (∀ a b : Operation, a.type = .deleteNode → b.type = .deleteNode → a.path = b.path →
       detectConflicts [a] [b] = []) := by
  constructor
  · intro opsA opsB a b hb hlast hor hnand
    refine direct_conflict_mem opsA opsB a b hb ?_ ?_
    · rw [mapFind_buildMapA]; exact hlast
    · simp [isConflict, hor, hnand]
  · intro a b ha hb hpath
    have hka : pathKey a = pathString a.path := by simp [pathKey, ha]
    have hkb : pathKey b = pathString b.path := by simp [pathKey, hb]
    have hdesc : ∀ p : List Nat, isDescendant p p = false := fun p => by
      simp [isDescendant]
    simp [detectConflicts, buildMapA, mapInsert, mapFind, List.find?, hka, hkb,
          hpath, isConflict, ha, hb, hdesc, List.flatMap]

/-- Claim C5 witness: a DELETE_NODE of A against an UPDATE_ATTR of B on
the node at path `[1]` is reported as a Direct conflict, and identical
single DELETE_NODE deltas on the node at path `[2]` produce no
conflicts. -/
theorem C5_delete_conflict_amended_witness :
    ({ type := "Direct",
       description := "Conflict on node " ++ fmtPath [1] ++ ": " ++
                      opTypeName OpType.deleteNode ++ " vs " ++ opTypeName OpType.updateAttr,
       path := [1], ops := [{ type := .deleteNode, path := [1] },
                            { type := .updateAttr, path := [1], key := "k", newValue := "v" }] } : Conflict)
      ∈ detectConflicts [{ type := .deleteNode, path := [1] }]
          [{ type := .updateAttr, path := [1], key := "k", newValue := "v" }]
  ∧ detectConflicts [{ type := .deleteNode, path := [2] }]
      [{ type := .deleteNode, path := [2] }] = [] := by
  refine ⟨C5_delete_conflict_amended.1
      [{ type := .deleteNode, path := [1] }]
      [{ type := .updateAttr, path := [1], key := "k", newValue := "v" }]
      { type := .deleteNode, path := [1] }
      { type := .updateAttr, path := [1], key := "k", newValue := "v" }
      (List.mem_singleton.mpr rfl) ?_ (Or.inl rfl) (by decide),
    C5_delete_conflict_amended.2
      { type := .deleteNode, path := [2] }
      { type := .deleteNode, path := [2] } rfl rfl rfl⟩
  rfl

/-- Claim C10: the Direct check stores A's operations in a map keyed by
`pathKey` (bare path for most kinds, path plus position for
INSERT_NODE, path plus kind tag, position and payloads for text ops),
so the surviving entry for a key is the last operation of A with that
key, and every reported Direct conflict pairs an op of B with exactly
that surviving entry — earlier same-key operations of A never appear
in a Direct conflict. -/
theorem C10_collision_map_last_wins (opsA opsB : List Operation) :
    (∀ k, mapFind (buildMapA opsA) k = lastWithKey opsA k)
  ∧ (∀ c ∈ detectConflicts opsA opsB, c.type = "Direct" →
       ∃ a b, c.ops = [a, b] ∧ b ∈ opsB ∧
         lastWithKey opsA (pathKey b) = some a ∧ isConflict a b = true) :=
  ⟨fun k => mapFind_buildMapA opsA k,
   fun c hc hd => direct_conflict_shape opsA opsB c hc hd⟩

/-- Claim C10 witness: A holds two UPDATE_ATTR operations on different
attribute names of the element at path `[0]` (both key by the bare
path `"0"`), B deletes that node; the single reported Direct conflict
pairs B's delete with the *second* UPDATE_ATTR, the last one with that
key. -/
theorem C10_collision_map_last_wins_witness :
    ∃ a b, ({ type := "Direct",
              description := "Conflict on node " ++ fmtPath [0] ++ ": " ++
                             opTypeName OpType.updateAttr ++ " vs " ++ opTypeName OpType.deleteNode,
              path := [0],
              ops := [{ type := .updateAttr, path := [0], key := "id", newValue := "b" },
                      { type := .deleteNode, path := [0] }] } : Conflict).ops = [a, b]
      ∧ b ∈ [{ type := .deleteNode, path := ([0] : List Nat) }]
      ∧ lastWithKey [{ type := .updateAttr, path := [0], key := "class", newValue := "a" },
                     { type := .updateAttr, path := [0], key := "id", newValue := "b" }]
          (pathKey b) = some a
      ∧ isConflict a b = true := by
  have heval : detectConflicts
      [{ type := .updateAttr, path := [0], key := "class", newValue := "a" },
       { type := .updateAttr, path := [0], key := "id", newValue := "b" }]
      [{ type := .deleteNode, path := [0] }]
    = [{ type := "Direct",
         description := "Conflict on node " ++ fmtPath [0] ++ ": " ++
                        opTypeName OpType.updateAttr ++ " vs " ++ opTypeName OpType.deleteNode,
         path := [0],
         ops := [{ type := .updateAttr, path := [0], key := "id", newValue := "b" },
                 { type := .deleteNode, path := [0] }] }] := rfl
  exact (C10_collision_map_last_wins
      [{ type := .updateAttr, path := [0], key := "class", newValue := "a" },
       { type := .updateAttr, path := [0], key := "id", newValue := "b" }]
      [{ type := .deleteNode, path := [0] }]).2
    { type := "Direct",
      description := "Conflict on node " ++ fmtPath [0] ++ ": " ++
                     opTypeName OpType.updateAttr ++ " vs " ++ opTypeName OpType.deleteNode,
      path := [0],
      ops := [{ type := .updateAttr, path := [0], key := "id", newValue := "b" },
              { type := .deleteNode, path := [0] }] }
    (by rw [heval]; exact List.mem_singleton.mpr rfl) rfl

/-! ## Path update infrastructure -/

theorem getNode_nil (n : Node) : getNode n [] = some n := rfl

theorem getNode_cons (n : Node) (i : Nat) (rest : List Nat) :
    getNode n (i :: rest) = (n.children[i]?).bind (fun c => getNode c rest) := by
  cases h : n.children[i]? <;> simp [getNode, h]

/-- Successful resolution turns `updateAt` into `replaceAt` around the
updater's result. -/
theorem updateAt_eq (p : List Nat) (root x : Node) (f : Node → Except String Node)
    (h : getNode root p = some x) :
    updateAt root p f =
      match f x with
      | .ok y => .ok (replaceAt root p y)
      | .error e => .error e := by
  induction p generalizing root with
  | nil =>
      simp only [getNode] at h
      injection h with h
      subst h
      cases hf : f root <;> simp [updateAt, replaceAt, hf]
  | cons i rest ih =>
      rw [getNode_cons] at h
      cases hc : root.children[i]? with
      | none => rw [hc] at h; simp at h
      | some c =>
          rw [hc] at h
          simp only [Option.some_bind] at h
          cases hf : f x with
          | ok y =>
              simp only [updateAt, hc, ih c h, hf, replaceAt]
          | error e =>
              simp only [updateAt, hc, ih c h, hf]

theorem getNode_replaceAt (p : List Nat) (root x y : Node)
    (h : getNode root p = some x) :
    getNode (replaceAt root p y) p = some y := by
  induction p generalizing root with
  | nil => simp [getNode, replaceAt]
  | cons i rest ih =>
      rw [getNode_cons] at h
      cases hc : root.children[i]? with
      | none => rw [hc] at h; simp at h
      | some c =>
          rw [hc] at h
          simp only [Option.some_bind] at h
          have hlt : i < root.children.length := by
            by_contra hge
            rw [List.getElem?_eq_none (Nat.le_of_not_lt hge)] at hc
            exact Option.noConfusion hc
          rw [replaceAt, hc, getNode_cons]
          cases root with
          | mk k d a cs =>
              simp only [Node.withChildren_mk, Node.children_mk] at *
              rw [List.getElem?_set_eq_of_lt _ hlt, Option.some_bind]
              exact ih c h

theorem replaceAt_replaceAt (p : List Nat) (root x y z : Node)
    (h : getNode root p = some x) :
    replaceAt (replaceAt root p y) p z = replaceAt root p z := by
  induction p generalizing root with
  | nil => simp [replaceAt]
  | cons i rest ih =>
      rw [getNode_cons] at h
      cases hc : root.children[i]? with
      | none => rw [hc] at h; simp at h
      | some c =>
          rw [hc] at h
          simp only [Option.some_bind] at h
          have hlt : i < root.children.length := by
            by_contra hge
            rw [List.getElem?_eq_none (Nat.le_of_not_lt hge)] at hc
            exact Option.noConfusion hc
          cases root with
          | mk k d a cs =>
              simp only [Node.children_mk] at hc hlt
              simp only [replaceAt, Node.children_mk, Node.withChildren_mk, hc,
                List.getElem?_set_eq_of_lt _ hlt]
              rw [ih c h, List.set_set]

/-- Out-of-range positions (negative or past the end) append. -/
theorem insertChildAt_out (l : List Node) (c : Node) (pos : Int)
    (h : pos < 0 ∨ (l.length : Int) ≤ pos) :
    insertChildAt l c pos = l ++ [c] := by
  unfold insertChildAt
  rw [if_neg]
  rintro ⟨h0, hlt⟩
  rcases h with h | h
  · omega
  · have : l.length ≤ pos.toNat := by omega
    omega

/-- Claim C9: for an INSERT_NODE whose path resolves, the position is
never rejected: with a non-empty parsed fragment and a position that is
negative or not below the current child count, the first fragment node
is appended as the last child with no error; the operation always
succeeds; and an empty parsed fragment is a silent no-op. -/
theorem C9_insert_node_position (root parent : Node) (p : List Nat) (pos : Int)
    (hget : getNode root p = some parent) :
    (applyOp root { type := .insertNode, path := p, nodeData := [], position := pos } = .ok root)
  ∧ (∀ f fs, (pos < 0 ∨ (parent.children.length : Int) ≤ pos) →
      applyOp root { type := .insertNode, path := p, nodeData := f :: fs, position := pos }
        = .ok (replaceAt root p (parent.withChildren (parent.children ++ [f]))))
  ∧ (∀ f fs, ∃ r,
      applyOp root { type := .insertNode, path := p, nodeData := f :: fs, position := pos }
        = .ok r) := by
  refine ⟨?_, ?_, ?_⟩
  · simp [applyOp, hget]
  · intro f fs hout
    simp only [applyOp, hget]
    rw [updateAt_eq p root parent _ hget]
    simp [insertChildAt_out _ _ _ hout]
  · intro f fs
    simp only [applyOp, hget]
    rw [updateAt_eq p root parent _ hget]
    exact ⟨_, rfl⟩

/-- Claim C9 witness: inserting `<li>` at position `-5` under the `ul`
element (child count 1) appends it and succeeds, and an empty fragment
leaves the tree unchanged. -/
theorem C9_insert_node_position_witness :
    (applyOp (.mk .document "" [] [.mk .element "ul" [] [.mk .element "li" [] []]])
        { type := .insertNode, path := [0], nodeData := [], position := -5 }
      = .ok (.mk .document "" [] [.mk .element "ul" [] [.mk .element "li" [] []]]))
  ∧ applyOp (.mk .document "" [] [.mk .element "ul" [] [.mk .element "li" [] []]])
        { type := .insertNode, path := [0],
          nodeData := [.mk .element "li" [] [.mk .text "X" [] []]], position := -5 }
      = .ok (replaceAt (.mk .document "" [] [.mk .element "ul" [] [.mk .element "li" [] []]]) [0]
          ((Node.mk .element "ul" [] [.mk .element "li" [] []]).withChildren
            ([.mk .element "li" [] []] ++ [.mk .element "li" [] [.mk .text "X" [] []]]))) :=
  have h := C9_insert_node_position
    (.mk .document "" [] [.mk .element "ul" [] [.mk .element "li" [] []]])
    (.mk .element "ul" [] [.mk .element "li" [] []]) [0] (-5) rfl
  ⟨h.1, h.2.1 (.mk .element "li" [] [.mk .text "X" [] []]) [] (Or.inl (by decide))⟩

/-! ## Text splice algebra (for merge commutation) -/

theorem strLen_spliceIn (s x : String) (p : Nat) :
    strLen (spliceIn s p x) = strLen s + strLen x := by
  simp only [spliceIn, strLen]
  simp [List.length_take]
  omega

theorem spliceIn_comm (s x y : String) (p q : Nat) (hpq : p < q) (hq : q ≤ strLen s) :
    spliceIn (spliceIn s p x) (q + strLen x) y = spliceIn (spliceIn s q y) p x := by
  simp only [spliceIn, strLen] at *
  refine congrArg String.mk ?_
  set sd := s.data with hsd
  set xd := x.data
  set yd := y.data
  have hA : (sd.take p).length = p := by rw [List.length_take]; omega
  have hAx : (sd.take p ++ xd).length = p + xd.length := by simp [hA]
  have hQ : (sd.take q).length = q := by rw [List.length_take]; omega
  have ht1 : (sd.take p ++ xd ++ sd.drop p).take (q + xd.length)
      = sd.take p ++ xd ++ (sd.drop p).take (q - p) := by
    rw [List.append_assoc, List.take_append_eq_append_take,
        List.take_of_length_le (by omega : (sd.take p).length ≤ q + xd.length), hA,
        List.take_append_eq_append_take,
        List.take_of_length_le (by omega : xd.length ≤ q + xd.length - p)]
    have : q + xd.length - p - xd.length = q - p := by omega
    rw [this, List.append_assoc]
  have ht2 : (sd.take p ++ xd ++ sd.drop p).drop (q + xd.length) = sd.drop q := by
    rw [List.append_assoc, List.drop_append_eq_append_drop, hA,
        List.drop_append_eq_append_drop,
        List.drop_eq_nil_of_le (by omega : (sd.take p).length ≤ q + xd.length),
        List.drop_eq_nil_of_le (by omega : xd.length ≤ q + xd.length - p)]
    simp only [hA, List.nil_append]
    rw [List.drop_drop]
    congr 1
    omega
  have ht3 : (sd.take q ++ yd ++ sd.drop q).take p = sd.take p := by
    rw [List.append_assoc, List.take_append_eq_append_take, hQ,
        List.take_take, min_eq_left (Nat.le_of_lt hpq)]
    have : p - q = 0 := by omega
    simp [this]
  have ht4 : (sd.take q ++ yd ++ sd.drop q).drop p
      = (sd.drop p).take (q - p) ++ yd ++ sd.drop q := by
    rw [List.append_assoc, List.drop_append_eq_append_drop, hQ]
    have h0 : p - q = 0 := by omega
    rw [h0, List.drop_zero]
    have e : p + (q - p) = q := by omega
    have hdt : (sd.take q).drop p = (sd.drop p).take (q - p) := by
      rw [List.take_drop, e]
    rw [hdt, List.append_assoc]
  rw [ht1, ht2, ht3, ht4]
  simp [List.append_assoc]

/-! ## Applying text inserts through the tree -/

theorem applyOp_insertText (T node : Node) (p : List Nat) (x : String) (pos : Int)
    (hget : getNode T p = some node) (htext : node.kind = .text)
    (h0 : 0 ≤ pos) (hle : pos ≤ (strLen node.data : Int)) :
    applyOp T { type := .insertText, path := p, newValue := x, position := pos }
      = .ok (replaceAt T p (node.withData (spliceIn node.data pos.toNat x))) := by
  simp only [applyOp]
  rw [updateAt_eq p T node _ hget]
  rw [if_neg (by simp [htext]), if_neg (by omega)]

/-- Two INSERT_TEXT operations never conflict (any paths, any
payloads): the Direct table treats granular text pairs as mergeable and
no DELETE_NODE is present for the Structure check. -/
theorem no_conflict_insertText (a b : Operation)
    (ha : a.type = .insertText) (hb : b.type = .insertText) :
    detectConflicts [a] [b] = [] := by
  have hconf : isConflict a b = false := by
    simp [isConflict, ha, hb]
  by_cases hk : pathKey a = pathKey b <;>
    simp [detectConflicts, buildMapA, mapInsert, mapFind, List.find?, hk, hconf,
          ha, hb, List.flatMap]

@[simp] theorem Node.kind_withData (n : Node) (d : String) : (n.withData d).kind = n.kind := by
  cases n; rfl

@[simp] theorem Node.data_withData (n : Node) (d : String) : (n.withData d).data = d := by
  cases n; rfl

theorem Node.withData_withData (n : Node) (d d' : String) :
    (n.withData d).withData d' = n.withData d' := by
  cases n; rfl

/-- Evaluation of `Merge` on two single INSERT_TEXT deltas addressing
the same resolved text node: A's insert applies first, B's position is
shifted right by A's length when it is not left of A, and the output
fields are the render of the doubly spliced document. -/
theorem merge_pair_inserts (E : Ext) (base : String) (T node : Node) (p : List Nat)
    (x y : String) (pa pb : Nat)
    (hparse : E.parse base = .ok T) (hget : getNode T p = some node)
    (htext : node.kind = .text)
    (hpa : pa ≤ strLen node.data) (hpb : pb ≤ strLen node.data) :
    (Merge E base
        { baseHash := hashString base,
          operations := [{ type := .insertText, path := p, newValue := x, position := (pa : Int) }] }
        { baseHash := hashString base,
          operations := [{ type := .insertText, path := p, newValue := y, position := (pb : Int) }] }).html
      = renderHtml (E.render (replaceAt T p (node.withData
          (spliceIn (spliceIn node.data pa x) (if pa ≤ pb then pb + strLen x else pb) y))))
  ∧ (Merge E base
        { baseHash := hashString base,
          operations := [{ type := .insertText, path := p, newValue := x, position := (pa : Int) }] }
        { baseHash := hashString base,
          operations := [{ type := .insertText, path := p, newValue := y, position := (pb : Int) }] }).err
      = renderErr (E.render (replaceAt T p (node.withData
          (spliceIn (spliceIn node.data pa x) (if pa ≤ pb then pb + strLen x else pb) y)))) := by
  set a : Operation :=
    { type := .insertText, path := p, newValue := x, position := (pa : Int) } with hadef
  set b : Operation :=
    { type := .insertText, path := p, newValue := y, position := (pb : Int) } with hbdef
  have hnc : detectConflicts [a] [b] = [] := no_conflict_insertText a b rfl rfl
  have htr : transformOp b a
      = [{ b with position := if pa ≤ pb then (pb : Int) + (strLen x : Int) else (pb : Int) }] := by
    by_cases hcase : pa ≤ pb
    · have hio : (a.position ≤ b.position) := by
        simp only [hadef, hbdef]; omega
      simp [transformOp, hadef, hbdef, ge_iff_le, hcase, hio]
    · have hio : ¬(a.position ≤ b.position) := by
        simp only [hadef, hbdef]; omega
      simp [transformOp, hadef, hbdef, ge_iff_le, hcase, hio]
  have hT1 : applyOp T a = .ok (replaceAt T p (node.withData (spliceIn node.data pa x))) := by
    have h1 := applyOp_insertText T node p x ((pa : Nat) : Int) hget htext (by omega) (by omega)
    simp only [Int.toNat_natCast] at h1
    rw [hadef]
    exact h1
  have hget1 : getNode (replaceAt T p (node.withData (spliceIn node.data pa x))) p
      = some (node.withData (spliceIn node.data pa x)) :=
    getNode_replaceAt p T node _ hget
  have hlen1 : strLen (spliceIn node.data pa x) = strLen node.data + strLen x :=
    strLen_spliceIn node.data x pa
  have hk : (node.withData (spliceIn node.data pa x)).kind = .text := by simp [htext]
  have hT2 : applyOp (replaceAt T p (node.withData (spliceIn node.data pa x)))
      { b with position := if pa ≤ pb then (pb : Int) + (strLen x : Int) else (pb : Int) }
      = .ok (replaceAt T p (node.withData
          (spliceIn (spliceIn node.data pa x) (if pa ≤ pb then pb + strLen x else pb) y))) := by
    by_cases hcase : pa ≤ pb
    · have hnat : (((pb : Int) + (strLen x : Int))).toNat = pb + strLen x := by omega
      have h2 := applyOp_insertText _ (node.withData (spliceIn node.data pa x)) p y
        ((pb : Int) + (strLen x : Int)) hget1 hk (by omega)
        (by simp only [Node.data_withData, hlen1]; omega)
      rw [hnat] at h2
      simp only [Node.data_withData, Node.withData_withData,
        replaceAt_replaceAt p T node _ _ hget] at h2
      rw [if_pos hcase, if_pos hcase]
      simp only [hbdef]
      exact h2
    · have h2 := applyOp_insertText _ (node.withData (spliceIn node.data pa x)) p y
        ((pb : Nat) : Int) hget1 hk (by omega)
        (by simp only [Node.data_withData, hlen1]; omega)
      simp only [Int.toNat_natCast] at h2
      simp only [Node.data_withData, Node.withData_withData,
        replaceAt_replaceAt p T node _ _ hget] at h2
      rw [if_neg hcase, if_neg hcase]
      simp only [hbdef]
      exact h2
  have hPatch : ∀ d : Delta, d.baseHash = hashString base →
      d.operations = [a,
        { b with position := if pa ≤ pb then (pb : Int) + (strLen x : Int) else (pb : Int) }] →
      Patch E base d
        = E.render (replaceAt T p (node.withData
            (spliceIn (spliceIn node.data pa x) (if pa ≤ pb then pb + strLen x else pb) y))) := by
    intro d hdh hdo
    simp only [Patch]
    rw [if_neg (by simp [hdh]), hparse, hdo]
    simp only [runOps, hT1, hT2]
  constructor <;>
  · simp only [Merge]
    rw [if_neg (by simp), if_neg (by simp [hnc])]
    simp only [List.flatMap_cons, List.flatMap_nil, List.append_nil, transformAgainst,
      List.foldl_cons, List.foldl_nil, htr, List.singleton_append]
    rw [hPatch _ (by simp) (by simp)]
    cases E.render (replaceAt T p (node.withData
        (spliceIn (spliceIn node.data pa x) (if pa ≤ pb then pb + strLen x else pb) y))) <;>
      simp [renderHtml, renderErr]

set_option maxRecDepth 10000 in
/-- Claim C4 counterexample: both parties insert at the same offset 0
of the text node `Hello` (A inserts `X`, B inserts `Y`).  Conflict
detection is empty in both directions, both merges succeed, yet one
renders `XYHello` and the other `YXHello`: ties shift B right, so
non-conflicting merges are *not* commutative as claimed. -/
theorem C4_counterexample :
    detectConflicts
        [{ type := .insertText, path := [0], newValue := "X", position := 0 }]
        [{ type := .insertText, path := [0], newValue := "Y", position := 0 }] = []
  ∧ detectConflicts
        [{ type := .insertText, path := [0], newValue := "Y", position := 0 }]
        [{ type := .insertText, path := [0], newValue := "X", position := 0 }] = []
  ∧ (Merge (fixedExt (.mk .document "" [] [.mk .text "Hello" [] []])) "h"
        { baseHash := hashString "h",
          operations := [{ type := .insertText, path := [0], newValue := "X", position := 0 }] }
        { baseHash := hashString "h",
          operations := [{ type := .insertText, path := [0], newValue := "Y", position := 0 }] }).html
      = "XYHello"
  ∧ (Merge (fixedExt (.mk .document "" [] [.mk .text "Hello" [] []])) "h"
        { baseHash := hashString "h",
          operations := [{ type := .insertText, path := [0], newValue := "Y", position := 0 }] }
        { baseHash := hashString "h",
          operations := [{ type := .insertText, path := [0], newValue := "X", position := 0 }] }).html
      = "YXHello"
  ∧ ("XYHello" : String) ≠ "YXHello" :=
  ⟨rfl, rfl, by decide, by decide, by decide⟩

/-- Claim C4 (amended): merge of non-conflicting deltas commutes on the
text-OT core the spec's own scenarios exercise — two single INSERT_TEXT
deltas on the same resolved text node at *distinct* in-bounds byte
offsets (the counterexample forces ties to be excluded; overlapping
DELETE_TEXT ranges, also undetected by conflict detection, fail
commutativity the same way and stay excluded).  Both conflict checks
are empty and the two merge orders produce the same rendered document
and the same error field. -/
theorem C4_text_insert_commute (E : Ext) (base : String) (T node : Node) (p : List Nat)
    (x y : String) (pa pb : Nat)
    (hparse : E.parse base = .ok T) (hget : getNode T p = some node)
    (htext : node.kind = .text)
    (hpa : pa ≤ strLen node.data) (hpb : pb ≤ strLen node.data) (hne : pa ≠ pb) :
    detectConflicts
        [{ type := .insertText, path := p, newValue := x, position := (pa : Int) }]
        [{ type := .insertText, path := p, newValue := y, position := (pb : Int) }] = []
  ∧ detectConflicts
        [{ type := .insertText, path := p, newValue := y, position := (pb : Int) }]
        [{ type := .insertText, path := p, newValue := x, position := (pa : Int) }] = []
  ∧ (Merge E base
        { baseHash := hashString base,
          operations := [{ type := .insertText, path := p, newValue := x, position := (pa : Int) }] }
        { baseHash := hashString base,
          operations := [{ type := .insertText, path := p, newValue := y, position := (pb : Int) }] }).html
      = (Merge E base
        { baseHash := hashString base,
          operations := [{ type := .insertText, path := p, newValue := y, position := (pb : Int) }] }
        { baseHash := hashString base,
          operations := [{ type := .insertText, path := p, newValue := x, position := (pa : Int) }] }).html
  ∧ (Merge E base
        { baseHash := hashString base,
          operations := [{ type := .insertText, path := p, newValue := x, position := (pa : Int) }] }
        { baseHash := hashString base,
          operations := [{ type := .insertText, path := p, newValue := y, position := (pb : Int) }] }).err
      = (Merge E base
        { baseHash := hashString base,
          operations := [{ type := .insertText, path := p, newValue := y, position := (pb : Int) }] }
        { baseHash := hashString base,
          operations := [{ type := .insertText, path := p, newValue := x, position := (pa : Int) }] }).err := by
  have h1 := merge_pair_inserts E base T node p x y pa pb hparse hget htext hpa hpb
  have h2 := merge_pair_inserts E base T node p y x pb pa hparse hget htext hpb hpa
  have hS : spliceIn (spliceIn node.data pa x) (if pa ≤ pb then pb + strLen x else pb) y
      = spliceIn (spliceIn node.data pb y) (if pb ≤ pa then pa + strLen y else pa) x := by
    rcases Nat.lt_or_ge pa pb with hlt | hge
    · rw [if_pos (Nat.le_of_lt hlt), if_neg (by omega)]
      exact spliceIn_comm node.data x y pa pb hlt hpb
    · have hlt' : pb < pa := by omega
      rw [if_neg (by omega), if_pos (Nat.le_of_lt hlt')]
      exact (spliceIn_comm node.data y x pb pa hlt' hpa).symm
  exact ⟨no_conflict_insertText _ _ rfl rfl, no_conflict_insertText _ _ rfl rfl,
    by rw [h1.1, h2.1, hS], by rw [h1.2, h2.2, hS]⟩

/-- Claim C4 witness: on base tree `doc[text "Hello"]`, A inserts `X`
at offset 1 and B inserts `Y` at offset 3; both orders merge without
conflicts to the same rendered document. -/
theorem C4_text_insert_commute_witness :
    detectConflicts
        [{ type := .insertText, path := [0], newValue := "X", position := (1 : Int) }]
        [{ type := .insertText, path := [0], newValue := "Y", position := (3 : Int) }] = []
  ∧ detectConflicts
        [{ type := .insertText, path := [0], newValue := "Y", position := (3 : Int) }]
        [{ type := .insertText, path := [0], newValue := "X", position := (1 : Int) }] = []
  ∧ (Merge (fixedExt (.mk .document "" [] [.mk .text "Hello" [] []])) "h"
        { baseHash := hashString "h",
          operations := [{ type := .insertText, path := [0], newValue := "X", position := (1 : Int) }] }
        { baseHash := hashString "h",
          operations := [{ type := .insertText, path := [0], newValue := "Y", position := (3 : Int) }] }).html
      = (Merge (fixedExt (.mk .document "" [] [.mk .text "Hello" [] []])) "h"
        { baseHash := hashString "h",
          operations := [{ type := .insertText, path := [0], newValue := "Y", position := (3 : Int) }] }
        { baseHash := hashString "h",
          operations := [{ type := .insertText, path := [0], newValue := "X", position := (1 : Int) }] }).html
  ∧ (Merge (fixedExt (.mk .document "" [] [.mk .text "Hello" [] []])) "h"
        { baseHash := hashString "h",
          operations := [{ type := .insertText, path := [0], newValue := "X", position := (1 : Int) }] }
        { baseHash := hashString "h",
          operations := [{ type := .insertText, path := [0], newValue := "Y", position := (3 : Int) }] }).err
      = (Merge (fixedExt (.mk .document "" [] [.mk .text "Hello" [] []])) "h"
        { baseHash := hashString "h",
          operations := [{ type := .insertText, path := [0], newValue := "Y", position := (3 : Int) }] }
        { baseHash := hashString "h",
          operations := [{ type := .insertText, path := [0], newValue := "X", position := (1 : Int) }] }).err :=
  C4_text_insert_commute (fixedExt (.mk .document "" [] [.mk .text "Hello" [] []])) "h"
    (.mk .document "" [] [.mk .text "Hello" [] []]) (.mk .text "Hello" [] []) [0]
    "X" "Y" 1 3 rfl rfl rfl (by decide) (by decide) (by decide)

/-! ## Ordering of diff output -/

theorem diffOpOrder_left (o1 o2 : Operation)
    (h1 : o1.type ≠ .deleteNode) (h2 : o1.type ≠ .insertNode) : diffOpOrder o1 o2 :=
  ⟨fun hd _ _ => absurd hd h1, fun hi _ _ => absurd hi h2⟩

theorem pairwise_of_neutral (l : List Operation)
    (h : ∀ o ∈ l, o.type ≠ .deleteNode ∧ o.type ≠ .insertNode) :
    List.Pairwise diffOpOrder l := by
  induction l with
  | nil => exact List.Pairwise.nil
  | cons o rest ih =>
      refine List.Pairwise.cons (fun o2 _ => ?_) (ih (fun o ho => h o (List.mem_cons_of_mem _ ho)))
      exact diffOpOrder_left o o2 (h o (List.mem_cons_self _ _)).1 (h o (List.mem_cons_self _ _)).2

theorem diffAttributes_mem (o n : Node) (path : List Nat) (op : Operation)
    (h : op ∈ diffAttributes o n path) : op.type = .updateAttr ∧ op.path = path := by
  unfold diffAttributes at h
  rcases List.mem_append.mp h with h | h <;>
  · obtain ⟨k, _, hk⟩ := List.mem_filterMap.mp h
    split at hk
    all_goals first
      | exact Option.noConfusion hk
      | (split at hk
         · injection hk with hk
           subst hk
           exact ⟨rfl, rfl⟩
         · exact Option.noConfusion hk)
      | (injection hk with hk
         subst hk
         exact ⟨rfl, rfl⟩)

theorem insertRange_mem (p : List Nat) (i : Nat) (rest : List Node) (op : Operation)
    (h : op ∈ insertRange p i rest) :
    op.type = .insertNode ∧ op.path = p ∧ (i : Int) ≤ op.position := by
  induction rest generalizing i with
  | nil => simp [insertRange] at h
  | cons c cs ih =>
      simp only [insertRange, List.mem_cons] at h
      rcases h with h | h
      · subst h
        exact ⟨rfl, rfl, le_refl _⟩
      · obtain ⟨h1, h2, h3⟩ := ih (i + 1) h
        exact ⟨h1, h2, by omega⟩

theorem pairwise_insertRange (p : List Nat) (i : Nat) (rest : List Node) :
    List.Pairwise diffOpOrder (insertRange p i rest) := by
  induction rest generalizing i with
  | nil => simp [insertRange]
  | cons c cs ih =>
      simp only [insertRange]
      refine List.Pairwise.cons (fun op hop => ?_) (ih (i + 1))
      obtain ⟨h1, h2, h3⟩ := insertRange_mem p (i + 1) cs op hop
      constructor
      · intro hd
        exact absurd hd (by simp)
      · intro _ _ _
        simp only [h3]
        omega

theorem deleteRange_mem (p : List Nat) (m len : Nat) (op : Operation)
    (h : op ∈ deleteRange p m len) :
    op.type = .deleteNode ∧ ∃ i, m ≤ i ∧ i < len ∧ op.path = p ++ [i] := by
  unfold deleteRange at h
  obtain ⟨i, hi, hop⟩ := List.mem_map.mp h
  rw [List.mem_reverse, List.mem_range'_1] at hi
  subst hop
  exact ⟨rfl, i, hi.1, by omega, rfl⟩

theorem pairwise_deleteRange (p : List Nat) (m len : Nat) :
    List.Pairwise diffOpOrder (deleteRange p m len) := by
  unfold deleteRange
  rw [List.pairwise_map, List.pairwise_reverse]
  refine List.Pairwise.imp ?_ (List.pairwise_lt_range' m (len - m))
  intro i j hij
  constructor
  · intro _ _ _
    simp only [List.dropLast_concat, List.getLast?_concat, Option.getD_some]
    exact hij
  · intro hi
    exact absurd hi (by simp)

theorem dropLast_append_ne (u v : List Nat) (hv : v ≠ []) :
    (u ++ v).dropLast = u ++ v.dropLast := by
  induction u with
  | nil => simp
  | cons a u ih =>
      rw [List.cons_append, List.dropLast_cons_of_ne_nil (by simp [hv]), ih, List.cons_append]

/-- Every operation produced at `path` addresses `path` or below, and
DELETE_NODE operations address strictly below. -/
theorem diffNodes_shape (o n : Node) (path : List Nat) (op : Operation)
    (h : op ∈ diffNodes o n path) :
    ∃ t, op.path = path ++ t ∧ (op.type = .deleteNode → t ≠ []) := by
  refine diffNodes.induct
    (fun o n path => ∀ op, op ∈ diffNodes o n path →
      ∃ t, op.path = path ++ t ∧ (op.type = .deleteNode → t ≠ []))
    (fun cs ncs path i => ∀ op, op ∈ diffCommon cs ncs path i →
      ∃ j t, i ≤ j ∧ op.path = path ++ j :: t ∧ (op.type = .deleteNode → t ≠ []))
    ?_ ?_ ?_ o n path op h
  · intro k d a cs n path hcomm op hop
    simp only [diffNodes, List.mem_append] at hop
    rcases hop with ((hA | hT) | ((hC | hD) | hI))
    · split at hA
      · obtain ⟨ht, hp⟩ := diffAttributes_mem _ _ _ _ hA
        exact ⟨[], by simp [hp], fun hd => by simp [ht] at hd⟩
      · simp at hA
    · split at hT
      · simp only [List.mem_singleton] at hT
        subst hT
        exact ⟨[], by simp, fun hd => by simp at hd⟩
      · simp at hT
    · obtain ⟨j, t, _, hp, hd⟩ := hcomm op hC
      exact ⟨j :: t, hp, fun _ => by simp⟩
    · obtain ⟨ht, i, _, _, hp⟩ := deleteRange_mem _ _ _ _ hD
      exact ⟨[i], hp, fun _ => by simp⟩
    · obtain ⟨ht, hp, _⟩ := insertRange_mem _ _ _ _ hI
      exact ⟨[], by simp [hp], fun hd => by simp [ht] at hd⟩
  · intro a as b bs p i ih1 ih2 op hop
    simp only [diffCommon, List.mem_append] at hop
    rcases hop with h | h
    · obtain ⟨t, hp, hd⟩ := ih1 op h
      exact ⟨i, t, le_refl _, by rw [hp, List.append_assoc]; rfl, hd⟩
    · obtain ⟨j, t, hij, hp, hd⟩ := ih2 op h
      exact ⟨j, t, by omega, hp, hd⟩
  · intro t x x1 x2 hne op hop
    cases t with
    | nil =>
        rw [show diffCommon [] x x1 x2 = [] from by cases x <;> rfl] at hop
        simp at hop
    | cons a as =>
        cases x with
        | nil =>
            rw [show diffCommon (a :: as) [] x1 x2 = [] from rfl] at hop
            simp at hop
        | cons b bs => exact (hne a as b bs rfl rfl).elim

theorem diffCommon_shape (cs : List Node) (ncs : List Node) (path : List Nat) (i : Nat)
    (op : Operation) (h : op ∈ diffCommon cs ncs path i) :
    ∃ j t, i ≤ j ∧ op.path = path ++ j :: t ∧ (op.type = .deleteNode → t ≠ []) := by
  induction cs generalizing ncs i with
  | nil =>
      rw [show diffCommon [] ncs path i = [] from by cases ncs <;> rfl] at h
      simp at h
  | cons a as ih =>
      cases ncs with
      | nil =>
          rw [show diffCommon (a :: as) [] path i = [] from rfl] at h
          simp at h
      | cons b bs =>
          simp only [diffCommon, List.mem_append] at h
          rcases h with h | h
          · obtain ⟨t, hp, hd⟩ := diffNodes_shape a b (path ++ [i]) op h
            exact ⟨i, t, le_refl _, by rw [hp, List.append_assoc]; rfl, hd⟩
          · obtain ⟨j, t, hij, hp, hd⟩ := ih bs (i + 1) h
            exact ⟨j, t, by omega, hp, hd⟩

/-- Claim C8: in every operation list produced by the diff engine, the
DELETE_NODE operations that share a parent appear in descending order
of child index, and the INSERT_NODE operations that share a parent
appear in ascending order of target position (for any two list
positions, earlier versus later).  Hence each delete's path and each
insert's position is the valid one at its moment of application when
`Patch` replays the list in order (established separately by the
round-trip development). -/
theorem C8_diff_op_ordering (o n : Node) (path : List Nat) :
    List.Pairwise diffOpOrder (diffNodes o n path) := by
  refine diffNodes.induct
    (fun o n path => List.Pairwise diffOpOrder (diffNodes o n path))
    (fun cs ncs path i => List.Pairwise diffOpOrder (diffCommon cs ncs path i))
    ?_ ?_ ?_ o n path
  · intro k d a cs n path hcomm
    simp only [diffNodes]
    have hA : ∀ op ∈ (if k = .element then diffAttributes (.mk k d a cs) n path else []),
        op.type ≠ .deleteNode ∧ op.type ≠ .insertNode := by
      intro op hop
      split at hop
      · obtain ⟨ht, _⟩ := diffAttributes_mem _ _ _ _ hop
        simp [ht]
      · simp at hop
    have hT : ∀ op ∈ (if k = .text ∧ d ≠ n.data then
          [({ type := .updateText, path := path, oldValue := d,
              newValue := n.data } : Operation)] else []),
        op.type ≠ .deleteNode ∧ op.type ≠ .insertNode := by
      intro op hop
      split at hop
      · simp only [List.mem_singleton] at hop
        subst hop
        simp
      · simp at hop
    have hC : ∀ op ∈ diffCommon cs n.children path 0,
        ∃ j t, op.path = path ++ j :: t ∧ (op.type = .deleteNode → t ≠ []) := by
      intro op hop
      obtain ⟨j, t, _, hp, hd⟩ := diffCommon_shape _ _ _ _ op hop
      exact ⟨j, t, hp, hd⟩
    have hD : ∀ op ∈ deleteRange path (min cs.length n.children.length) cs.length,
        op.type = .deleteNode ∧ ∃ i, op.path = path ++ [i] := by
      intro op hop
      obtain ⟨ht, i, _, _, hp⟩ := deleteRange_mem _ _ _ _ hop
      exact ⟨ht, i, hp⟩
    have hI : ∀ op ∈ insertRange path (min cs.length n.children.length)
          (n.children.drop (min cs.length n.children.length)),
        op.type = .insertNode ∧ op.path = path := by
      intro op hop
      obtain ⟨ht, hp, _⟩ := insertRange_mem _ _ _ _ hop
      exact ⟨ht, hp⟩
    refine List.pairwise_append.mpr ⟨List.pairwise_append.mpr
      ⟨pairwise_of_neutral _ hA, pairwise_of_neutral _ hT, fun o1 ho1 o2 _ =>
        diffOpOrder_left o1 o2 (hA o1 ho1).1 (hA o1 ho1).2⟩, ?_, ?_⟩
    · -- children block: (C ++ D) ++ I
      refine List.pairwise_append.mpr ⟨List.pairwise_append.mpr
        ⟨hcomm, pairwise_deleteRange _ _ _, ?_⟩, pairwise_insertRange _ _ _, ?_⟩
      · -- C × D
        intro o1 ho1 o2 ho2
        obtain ⟨j, t, hp1, hdel1⟩ := hC o1 ho1
        obtain ⟨ht2, i2, hp2⟩ := hD o2 ho2
        constructor
        · intro hd1 _ hdrop
          have ht1 : t ≠ [] := hdel1 hd1
          rw [hp1, hp2, List.dropLast_concat,
              dropLast_append_ne _ _ (by simp),
              List.dropLast_cons_of_ne_nil ht1] at hdrop
          have h0 : (path : List Nat) ++ j :: t.dropLast = path ++ [] := by
            simp at hdrop
          exact absurd (List.append_cancel_left h0) (by simp)
        · intro _ hi2
          rw [ht2] at hi2
          exact absurd hi2 (by simp)
      · -- (C ++ D) × I
        intro o1 ho1 o2 ho2
        obtain ⟨ht2, hp2⟩ := hI o2 ho2
        rcases List.mem_append.mp ho1 with h1 | h1
        · obtain ⟨j, t, hp1, _⟩ := hC o1 h1
          constructor
          · intro _ hd2
            rw [ht2] at hd2
            exact absurd hd2 (by simp)
          · intro _ _ hpeq
            exfalso
            rw [hp1, hp2] at hpeq
            have := congrArg List.length hpeq
            simp at this
        · obtain ⟨ht1, _, _⟩ := hD o1 h1
          constructor
          · intro _ hd2
            rw [ht2] at hd2
            exact absurd hd2 (by simp)
          · intro hi1
            rw [ht1] at hi1
            exact absurd hi1 (by simp)
    · -- (A ++ T) × children
      intro o1 ho1 o2 _
      rcases List.mem_append.mp ho1 with h1 | h1
      · exact diffOpOrder_left o1 o2 (hA o1 h1).1 (hA o1 h1).2
      · exact diffOpOrder_left o1 o2 (hT o1 h1).1 (hT o1 h1).2
  · intro a as b bs p i ih1 ih2
    simp only [diffCommon]
    refine List.pairwise_append.mpr ⟨ih1, ih2, ?_⟩
    intro o1 ho1 o2 ho2
    obtain ⟨t1, hp1, hdel1⟩ := diffNodes_shape a b (p ++ [i]) o1 ho1
    obtain ⟨j, t2, hij, hp2, hdel2⟩ := diffCommon_shape as bs p (i + 1) o2 ho2
    have hp1' : o1.path = p ++ i :: t1 := by rw [hp1, List.append_assoc]; rfl
    constructor
    · intro hd1 hd2 hdrop
      exfalso
      have ht1 : t1 ≠ [] := hdel1 hd1
      have ht2 : t2 ≠ [] := hdel2 hd2
      rw [hp1', hp2, dropLast_append_ne _ _ (by simp),
          dropLast_append_ne _ _ (by simp),
          List.dropLast_cons_of_ne_nil ht1,
          List.dropLast_cons_of_ne_nil ht2] at hdrop
      have := List.append_cancel_left hdrop
      have hji : i = j := by injection this
      omega
    · intro _ _ hpeq
      rw [hp1', hp2] at hpeq
      have := List.append_cancel_left hpeq
      have hji : i = j := by injection this
      omega
  · intro t x x1 x2 hne
    cases t with
    | nil =>
        rw [show diffCommon [] x x1 x2 = [] from by cases x <;> rfl]
        exact List.Pairwise.nil
    | cons a as =>
        cases x with
        | nil =>
            rw [show diffCommon (a :: as) [] x1 x2 = [] from rfl]
            exact List.Pairwise.nil
        | cons b bs => exact (hne a as b bs rfl rfl).elim

/-! ## Path shifting: diff at a path is the shifted root diff -/

@[simp] theorem shiftOp_type (p : List Nat) (op : Operation) :
    (shiftOp p op).type = op.type := rfl

@[simp] theorem shiftOp_path (p : List Nat) (op : Operation) :
    (shiftOp p op).path = p ++ op.path := rfl

theorem shiftOps_append (p : List Nat) (l1 l2 : List Operation) :
    shiftOps p (l1 ++ l2) = shiftOps p l1 ++ shiftOps p l2 :=
  List.map_append _ _ _

theorem shiftOps_shiftOps (p q : List Nat) (l : List Operation) :
    shiftOps p (shiftOps q l) = shiftOps (p ++ q) l := by
  unfold shiftOps shiftOp
  rw [List.map_map]
  apply List.map_congr_left
  intro op _
  simp [List.append_assoc]

theorem diffAttributes_shift (o n : Node) (q : List Nat) :
    diffAttributes o n q = shiftOps q (diffAttributes o n []) := by
  unfold diffAttributes shiftOps
  rw [List.map_append]
  congr 1 <;>
  · rw [List.map_filterMap]
    apply List.filterMap_congr
    intro k _
    rcases attrLookup o.attr k with _ | vOld <;> rcases attrLookup n.attr k with _ | vNew
    · simp
    · simp [shiftOp]
    · simp
    · by_cases hv : vOld ≠ vNew <;> simp [hv, shiftOp]

theorem deleteRange_shift (q : List Nat) (m len : Nat) :
    deleteRange q m len = shiftOps q (deleteRange [] m len) := by
  unfold deleteRange shiftOps
  rw [List.map_map]
  apply List.map_congr_left
  intro i _
  simp [shiftOp]

theorem insertRange_shift (q : List Nat) (i : Nat) (rest : List Node) :
    insertRange q i rest = shiftOps q (insertRange [] i rest) := by
  induction rest generalizing i with
  | nil => simp [insertRange, shiftOps]
  | cons c cs ih =>
      simp only [insertRange, shiftOps, List.map_cons]
      rw [← shiftOps, ← ih]
      simp [shiftOp]

theorem diffNodes_shift (o n : Node) (q : List Nat) :
    diffNodes o n q = shiftOps q (diffNodes o n []) := by
  refine diffNodes.induct
    (fun o n _ => ∀ q, diffNodes o n q = shiftOps q (diffNodes o n []))
    (fun cs ncs _ i => ∀ q, diffCommon cs ncs q i = shiftOps q (diffCommon cs ncs [] i))
    ?_ ?_ ?_ o n q q
  · intro k d a cs n _ hcomm q
    simp only [diffNodes]
    rw [shiftOps_append, shiftOps_append, shiftOps_append, shiftOps_append]
    congr 1
    · congr 1
      · by_cases hk : k = .element
        · simp only [if_pos hk]
          exact diffAttributes_shift _ _ q
        · simp [hk, shiftOps]
      · by_cases ht : (k = NKind.text ∧ d ≠ n.data)
        · simp only [if_pos ht]
          simp [shiftOps, shiftOp]
        · simp [ht, shiftOps]
    · congr 1
      · congr 1
        · exact hcomm q
        · exact deleteRange_shift q _ _
      · exact insertRange_shift q _ _
  · intro a as b bs _ i ih1 ih2 q
    simp only [diffCommon]
    rw [shiftOps_append]
    congr 1
    · rw [ih1 (q ++ [i]), ← shiftOps_shiftOps, ← ih1 [i]]
      rfl
    · exact ih2 q
  · intro t x _ _ hne q
    have hnil : ∀ y1 y2, diffCommon t x y1 y2 = ([] : List Operation) := by
      intro y1 y2
      cases t with
      | nil => cases x <;> rfl
      | cons a as =>
          cases x with
          | nil => rfl
          | cons b bs => exact (hne a as b bs rfl rfl).elim
    rw [hnil, hnil]
    simp [shiftOps]

/-! ## Lifting operation application into a child subtree -/

@[simp] theorem shiftOp_key (p : List Nat) (op : Operation) : (shiftOp p op).key = op.key := rfl
@[simp] theorem shiftOp_oldValue (p : List Nat) (op : Operation) :
    (shiftOp p op).oldValue = op.oldValue := rfl
@[simp] theorem shiftOp_newValue (p : List Nat) (op : Operation) :
    (shiftOp p op).newValue = op.newValue := rfl
@[simp] theorem shiftOp_nodeData (p : List Nat) (op : Operation) :
    (shiftOp p op).nodeData = op.nodeData := rfl
@[simp] theorem shiftOp_position (p : List Nat) (op : Operation) :
    (shiftOp p op).position = op.position := rfl

@[simp] theorem Node.kind_withChildren (n : Node) (c : List Node) :
    (n.withChildren c).kind = n.kind := by cases n; rfl
@[simp] theorem Node.data_withChildren (n : Node) (c : List Node) :
    (n.withChildren c).data = n.data := by cases n; rfl
@[simp] theorem Node.attr_withChildren (n : Node) (c : List Node) :
    (n.withChildren c).attr = n.attr := by cases n; rfl
@[simp] theorem Node.children_withChildren (n : Node) (c : List Node) :
    (n.withChildren c).children = c := by cases n; rfl

theorem Node.withChildren_withChildren (n : Node) (c c' : List Node) :
    (n.withChildren c).withChildren c' = n.withChildren c' := by cases n; rfl

@[simp] theorem Node.kind_withAttr (n : Node) (a : List (String × String)) :
    (n.withAttr a).kind = n.kind := by cases n; rfl
@[simp] theorem Node.data_withAttr (n : Node) (a : List (String × String)) :
    (n.withAttr a).data = n.data := by cases n; rfl
@[simp] theorem Node.attr_withAttr (n : Node) (a : List (String × String)) :
    (n.withAttr a).attr = a := by cases n; rfl
@[simp] theorem Node.children_withAttr (n : Node) (a : List (String × String)) :
    (n.withAttr a).children = n.children := by cases n; rfl

@[simp] theorem Node.attr_withData (n : Node) (d : String) :
    (n.withData d).attr = n.attr := by cases n; rfl
@[simp] theorem Node.children_withData (n : Node) (d : String) :
    (n.withData d).children = n.children := by cases n; rfl

theorem lt_of_getElem? (l : List Node) (i : Nat) (x : Node) (h : l[i]? = some x) :
    i < l.length := by
  by_contra hge
  rw [List.getElem?_eq_none (Nat.le_of_not_lt hge)] at h
  exact Option.noConfusion h

theorem set_of_getElem? (l : List Node) (i : Nat) (x : Node) (h : l[i]? = some x) :
    l.set i x = l := by
  apply List.ext_getElem?
  intro j
  by_cases hj : i = j
  · subst hj
    rw [List.getElem?_set_eq_of_lt _ (lt_of_getElem? l i x h), h]
  · rw [List.getElem?_set_ne hj]

/-- Applying an operation shifted under child `i` of `root` applies it
inside that child and rebuilds the spine. -/
theorem applyOp_shift (sub sub' : Node) (op : Operation)
    (hwf : op.type = .deleteNode → op.path ≠ [])
    (hok : applyOp sub op = .ok sub')
    (root : Node) (i : Nat) (hchild : root.children[i]? = some sub) :
    applyOp root (shiftOp [i] op) = .ok (root.withChildren (root.children.set i sub')) := by
  cases htype : op.type
  case updateText | insertText | deleteText | updateAttr =>
    all_goals
      simp only [applyOp, htype, shiftOp_type, shiftOp_path, shiftOp_key, shiftOp_oldValue,
        shiftOp_newValue, shiftOp_nodeData, shiftOp_position, List.singleton_append] at hok ⊢
    all_goals
      simp only [updateAt, hchild, hok]
  case insertNode =>
    simp only [applyOp, htype, shiftOp_type, shiftOp_path, shiftOp_nodeData, shiftOp_position,
      List.singleton_append] at hok ⊢
    rw [getNode_cons, hchild, Option.some_bind]
    cases hg : getNode sub op.path with
    | none => rw [hg] at hok; exact Except.noConfusion hok
    | some parent =>
        rw [hg] at hok
        simp only [] at hok ⊢
        cases hnd : op.nodeData with
        | nil =>
            rw [hnd] at hok
            simp only [] at hok ⊢
            injection hok with hok
            subst hok
            rw [set_of_getElem? _ _ _ hchild, Node.withChildren_self]
        | cons f fs =>
            rw [hnd] at hok
            simp only [] at hok ⊢
            simp only [updateAt, hchild, hok]
  case deleteNode =>
    have hne : op.path ≠ [] := hwf htype
    simp only [applyOp, htype, shiftOp_type, shiftOp_path, List.singleton_append] at hok ⊢
    rw [getNode_cons, hchild, Option.some_bind]
    cases hg : getNode sub op.path with
    | none => rw [hg] at hok; exact Except.noConfusion hok
    | some nd =>
        rw [hg] at hok
        simp only [] at hok ⊢
        obtain ⟨ph, pt, hpath⟩ : ∃ ph pt, op.path = ph :: pt := by
          cases hp : op.path with
          | nil => exact absurd hp hne
          | cons a b => exact ⟨a, b, rfl⟩
        rw [hpath] at hok ⊢
        simp only [] at hok
        simp only [List.dropLast_cons_of_ne_nil (List.cons_ne_nil ph pt),
          List.getLast?_cons_cons]
        simp only [updateAt, hchild, hok]
  case moveNode =>
    simp only [applyOp, htype] at hok
    exact Except.noConfusion hok

/-! ## Sequencing operation lists -/

theorem applyAll_nil (root : Node) : applyAll root [] = .ok root := rfl

theorem applyAll_cons (root : Node) (op : Operation) (rest : List Operation) :
    applyAll root (op :: rest) =
      match applyOp root op with
      | .ok r => applyAll r rest
      | .error e => .error e := by
  simp only [applyAll, List.foldlM_cons]
  cases applyOp root op <;> rfl

theorem applyAll_append (l1 l2 : List Operation) :
    ∀ root : Node, applyAll root (l1 ++ l2) =
      match applyAll root l1 with
      | .ok r => applyAll r l2
      | .error e => .error e := by
  induction l1 with
  | nil => intro root; rw [List.nil_append, applyAll_nil]
  | cons op l1 ih =>
      intro root
      rw [List.cons_append, applyAll_cons, applyAll_cons]
      cases applyOp root op with
      | ok r => exact ih r
      | error e => rfl

/-- A successful index-free run is a successful `runOps` run (the two
differ only in the error path, where `runOps` wraps the message). -/
theorem runOps_of_applyAll (ops : List Operation) :
    ∀ (root r : Node) (i : Nat), applyAll root ops = .ok r → runOps root ops i = .ok r := by
  induction ops with
  | nil => intro root r i h; exact h
  | cons op rest ih =>
      intro root r i h
      rw [applyAll_cons] at h
      cases hop : applyOp root op with
      | ok m =>
          rw [hop] at h
          simp only [runOps, hop]
          exact ih m r (i + 1) h
      | error e => rw [hop] at h; exact Except.noConfusion h

/-- Batch form of `applyOp_shift`: a successful run inside child `i`
lifts to a run of the shifted list at the parent. -/
theorem applyAll_shift (ops : List Operation) (sub' : Node) (i : Nat) :
    ∀ (sub root : Node),
      (∀ op ∈ ops, op.type = .deleteNode → op.path ≠ []) →
      applyAll sub ops = .ok sub' →
      root.children[i]? = some sub →
      applyAll root (shiftOps [i] ops) = .ok (root.withChildren (root.children.set i sub')) := by
  induction ops with
  | nil =>
      intro sub root _ hok hchild
      rw [applyAll_nil] at hok
      injection hok with hok
      subst hok
      rw [shiftOps, List.map_nil, applyAll_nil, set_of_getElem? _ _ _ hchild,
        Node.withChildren_self]
  | cons op rest ih =>
      intro sub root hwf hok hchild
      rw [applyAll_cons] at hok
      cases hop : applyOp sub op with
      | error e => rw [hop] at hok; exact Except.noConfusion hok
      | ok mid =>
          rw [hop] at hok
          have h1 := applyOp_shift sub mid op (hwf op (List.mem_cons_self op rest)) hop
            root i hchild
          rw [shiftOps, List.map_cons, applyAll_cons, h1]
          have hchild2 : (root.withChildren (root.children.set i mid)).children[i]? = some mid := by
            rw [Node.children_withChildren,
              List.getElem?_set_eq_of_lt _ (lt_of_getElem? _ _ _ hchild)]
          have h2 := ih mid (root.withChildren (root.children.set i mid))
            (fun o ho => hwf o (List.mem_cons_of_mem op ho)) hok hchild2
          rw [show shiftOps [i] rest = List.map (shiftOp [i]) rest from rfl] at h2
          simp only []
          rw [h2, Node.withChildren_withChildren, Node.children_withChildren, List.set_set]

/-! ## Applying the child-list loops of the diff -/

/-- Ascending inserts starting at the current child count all append. -/
theorem applyAll_insertRange (cs2 : List Node) :
    ∀ (w : Node) (i : Nat), w.children.length = i →
      applyAll w (insertRange [] i cs2) = .ok (w.withChildren (w.children ++ cs2)) := by
  induction cs2 with
  | nil =>
      intro w i _
      rw [insertRange, applyAll_nil, List.append_nil, Node.withChildren_self]
  | cons c cs ih =>
      intro w i hlen
      rw [insertRange, applyAll_cons]
      have hop : applyOp w { type := .insertNode, path := [], nodeData := [c], position := (i : Int) } = .ok (w.withChildren (insertChildAt w.children c (i : Int))) := rfl
      have hins : insertChildAt w.children c ((i : Nat) : Int) = w.children ++ [c] := by
        rw [insertChildAt, if_neg]
        rintro ⟨-, hlt⟩
        rw [Int.toNat_natCast] at hlt
        omega
      rw [hop, hins]
      simp only []
      rw [ih (w.withChildren (w.children ++ [c])) (i + 1)
        (by rw [Node.children_withChildren, List.length_append, hlen]; rfl)]
      rw [Node.withChildren_withChildren, Node.children_withChildren, List.append_assoc,
        List.singleton_append]

/-- Descending deletes down to index `m` truncate the child list to its
first `m` entries. -/
theorem applyAll_deleteRange (m : Nat) (k : Nat) :
    ∀ (z : Node), z.children.length = m + k →
      applyAll z (deleteRange [] m (m + k)) = .ok (z.withChildren (z.children.take m)) := by
  induction k with
  | zero =>
      intro z hlen
      have hm : z.children.length = m := by omega
      rw [deleteRange, Nat.add_zero, Nat.sub_self, List.range'_zero, List.reverse_nil,
        List.map_nil, applyAll_nil, ← hm, List.take_length, Node.withChildren_self]
  | succ k ih =>
      intro z hlen
      have hrange : deleteRange ([] : List Nat) m (m + (k + 1)) =
          ({ type := .deleteNode, path := [m + k] } : Operation) ::
            deleteRange [] m (m + k) := by
        rw [deleteRange, deleteRange, Nat.add_sub_cancel_left, Nat.add_sub_cancel_left,
          List.range'_concat, List.reverse_append, List.reverse_singleton,
          List.singleton_append, List.map_cons]
        simp
      obtain ⟨c, hc⟩ : ∃ c, z.children[m + k]? = some c := by
        rw [List.getElem?_eq_getElem (by omega)]
        exact ⟨_, rfl⟩
      have hg : getNode z [m + k] = some c := by
        rw [getNode_cons, hc, Option.some_bind, getNode_nil]
      have hop : applyOp z { type := .deleteNode, path := [m + k] } =
          .ok (z.withChildren (z.children.eraseIdx (m + k))) := by
        simp only [applyOp, hg]
        rfl
      have herase : z.children.eraseIdx (m + k) = z.children.take (m + k) := by
        rw [List.eraseIdx_eq_take_drop_succ, List.drop_eq_nil_of_le (by omega),
          List.append_nil]
      rw [hrange, applyAll_cons, hop, herase]
      simp only []
      rw [ih (z.withChildren (z.children.take (m + k)))
        (by rw [Node.children_withChildren, List.length_take]; omega)]
      rw [Node.withChildren_withChildren, Node.children_withChildren, List.take_take,
        min_eq_left (by omega)]

/-! ## Attribute update correctness -/

theorem attrLookup_nil (key : String) : attrLookup [] key = none := rfl

theorem attrLookup_cons (k' v' : String) (rest : List (String × String)) (key : String) :
    attrLookup ((k', v') :: rest) key =
      match attrLookup rest key with
      | some v => some v
      | none => if k' = key then some v' else none := by
  unfold attrLookup
  rw [List.reverse_cons, List.find?_append]
  cases hfind : List.find? (fun a => a.1 = key) rest.reverse with
  | some a => simp [hfind]
  | none =>
      by_cases hk : k' = key <;> simp [hfind, List.find?_singleton, hk]

theorem attrLookup_eq_none_of_all (rest : List (String × String)) (k0 : String)
    (h : rest.all (fun kv => kv.1 ≠ k0) = true) : attrLookup rest k0 = none := by
  have hf : List.find? (fun a => a.1 = k0) rest.reverse = none := by
    rw [List.find?_eq_none]
    intro a ha
    have := (List.all_eq_true.mp h) a (List.mem_reverse.mp ha)
    simpa using this
  unfold attrLookup
  rw [hf]
  rfl

theorem setAttr_sub (attrs : List (String × String)) (k val : String) :
    ∀ kv ∈ setAttr attrs k val, kv.1 = k ∨ kv ∈ attrs := by
  induction attrs with
  | nil =>
      intro kv hkv
      rw [setAttr, List.mem_singleton] at hkv
      subst hkv
      exact Or.inl rfl
  | cons a rest ih =>
      intro kv hkv
      obtain ⟨k0, v0⟩ := a
      rw [setAttr] at hkv
      by_cases hk : k0 = k
      · rw [if_pos hk] at hkv
        rcases List.mem_cons.mp hkv with h | h
        · subst h
          exact Or.inl hk
        · exact Or.inr (List.mem_cons_of_mem _ h)
      · rw [if_neg hk] at hkv
        rcases List.mem_cons.mp hkv with h | h
        · subst h
          exact Or.inr (List.mem_cons_self _ _)
        · rcases ih kv h with h' | h'
          · exact Or.inl h'
          · exact Or.inr (List.mem_cons_of_mem _ h')

theorem setAttr_nodup (attrs : List (String × String)) (k val : String) :
    nodupKeys attrs = true → nodupKeys (setAttr attrs k val) = true := by
  induction attrs with
  | nil => intro _; rfl
  | cons a rest ih =>
      intro h
      obtain ⟨k0, v0⟩ := a
      rw [nodupKeys, Bool.and_eq_true] at h
      obtain ⟨hall, hrest⟩ := h
      rw [setAttr]
      by_cases hk : k0 = k
      · rw [if_pos hk, nodupKeys, Bool.and_eq_true]
        exact ⟨hall, hrest⟩
      · rw [if_neg hk, nodupKeys, Bool.and_eq_true]
        refine ⟨?_, ih hrest⟩
        rw [List.all_eq_true]
        intro kv hkv
        rcases setAttr_sub rest k val kv hkv with h' | h'
        · simp only [h']
          simpa using fun he => hk he.symm
        · exact (List.all_eq_true.mp hall) kv h'

theorem attrLookup_setAttr (attrs : List (String × String)) (k val : String) :
    nodupKeys attrs = true → ∀ key,
      attrLookup (setAttr attrs k val) key =
        if k = key then some val else attrLookup attrs key := by
  induction attrs with
  | nil =>
      intro _ key
      rw [setAttr, attrLookup_cons, attrLookup_nil]
  | cons a rest ih =>
      intro h key
      obtain ⟨k0, v0⟩ := a
      rw [nodupKeys, Bool.and_eq_true] at h
      obtain ⟨hall, hrest⟩ := h
      rw [setAttr]
      by_cases hk0 : k0 = k
      · rw [if_pos hk0, attrLookup_cons, attrLookup_cons]
        by_cases hkey : k = key
        · subst hkey
          rw [attrLookup_eq_none_of_all rest k (hk0 ▸ hall)]
          simp [hk0]
        · have hk0key : k0 ≠ key := fun he => hkey (hk0 ▸ he)
          cases hl : attrLookup rest key <;> simp [hk0key, hkey]
      · rw [if_neg hk0, attrLookup_cons, ih hrest key]
        by_cases hkey : k = key
        · simp [hkey]
        · rw [if_neg hkey, if_neg hkey, attrLookup_cons]

theorem Node.withAttr_self (n : Node) : n.withAttr n.attr = n := by cases n; rfl

theorem Node.withAttr_withAttr (n : Node) (a b : List (String × String)) :
    (n.withAttr a).withAttr b = n.withAttr b := by cases n; rfl

/-- The attribute list after a run of `setAttr` updates: per key, the
last op with that key wins, and untouched keys keep their value. -/
theorem attrLookup_foldl_setAttr (ops : List Operation) :
    ∀ (a : List (String × String)), nodupKeys a = true → ∀ key,
      attrLookup (ops.foldl (fun acc op => setAttr acc op.key op.newValue) a) key =
        match ops.reverse.find? (fun op => op.key = key) with
        | some op => some op.newValue
        | none => attrLookup a key := by
  induction ops with
  | nil => intro a _ key; rfl
  | cons op rest ih =>
      intro a ha key
      rw [List.foldl_cons,
        ih (setAttr a op.key op.newValue) (setAttr_nodup a op.key op.newValue ha) key]
      rw [List.reverse_cons, List.find?_append]
      cases hfind : rest.reverse.find? (fun o => o.key = key) with
      | some o => simp [hfind]
      | none =>
          rw [attrLookup_setAttr a op.key op.newValue ha key]
          by_cases hk : op.key = key <;> simp [hfind, List.find?_singleton, hk]

/-- A run of root-path UPDATE_ATTR operations on an element node folds
`setAttr` over the attribute list and touches nothing else. -/
theorem applyAll_updateAttrs (ops : List Operation) :
    ∀ x : Node, x.kind = .element →
      (∀ op ∈ ops, op.type = .updateAttr ∧ op.path = []) →
      applyAll x ops =
        .ok (x.withAttr (ops.foldl (fun acc op => setAttr acc op.key op.newValue) x.attr)) := by
  induction ops with
  | nil =>
      intro x _ _
      rw [applyAll_nil, List.foldl_nil, Node.withAttr_self]
  | cons op rest ih =>
      intro x hx hops
      obtain ⟨htype, hpath⟩ := hops op (List.mem_cons_self op rest)
      have hop : applyOp x op = .ok (x.withAttr (setAttr x.attr op.key op.newValue)) := by
        simp only [applyOp, htype, hpath, updateAt]
        rw [if_neg (by simp [hx])]
      rw [applyAll_cons, hop]
      simp only []
      rw [ih (x.withAttr (setAttr x.attr op.key op.newValue)) (by rw [Node.kind_withAttr, hx])
        (fun o ho => hops o (List.mem_cons_of_mem op ho))]
      rw [Node.withAttr_withAttr, Node.attr_withAttr, List.foldl_cons]

theorem keyList_nodup (attrs : List (String × String)) : (keyList attrs).Nodup := by
  induction attrs with
  | nil => exact List.nodup_nil
  | cons a rest ih =>
      obtain ⟨k0, v0⟩ := a
      rw [keyList]
      refine List.Nodup.cons ?_ (List.Nodup.filter _ ih)
      intro hmem
      have := List.of_mem_filter hmem
      simp at this

theorem mem_keyList (attrs : List (String × String)) (key : String) :
    key ∈ keyList attrs ↔ (attrLookup attrs key).isSome = true := by
  induction attrs with
  | nil => simp [keyList, attrLookup_nil]
  | cons a rest ih =>
      obtain ⟨k0, v0⟩ := a
      rw [keyList, attrLookup_cons, List.mem_cons]
      by_cases hk : k0 = key
      · subst hk
        cases hl : attrLookup rest k0 <;> simp [hl]
      · have hk' : key ≠ k0 := fun h => hk h.symm
        have hmf : key ∈ (keyList rest).filter (fun k' => k' ≠ k0) ↔ key ∈ keyList rest := by
          rw [List.mem_filter]
          simp [hk']
        cases hl : attrLookup rest key with
        | some v =>
            have hmem : key ∈ keyList rest := ih.mpr (by rw [hl]; rfl)
            simp [hl, hmf, hmem]
            exact Or.inr hk'
        | none =>
            have hmem : key ∉ keyList rest := fun hm => by
              have hisme := ih.mp hm
              rw [hl] at hisme
              simp at hisme
            simp [hl, hmf, hk, hk', hmem]

theorem find?_filterMap_keyed (ks : List String) (f : String → Option Operation)
    (hf : ∀ k op, f k = some op → op.key = k) (key : String) :
    ks.Nodup →
    (ks.filterMap f).find? (fun op => op.key = key) = if key ∈ ks then f key else none := by
  induction ks with
  | nil => intro _; simp
  | cons k0 ks ih =>
      intro hnd
      rw [List.filterMap_cons]
      cases hf0 : f k0 with
      | some op0 =>
          have hk0 : op0.key = k0 := hf k0 op0 hf0
          by_cases hkey : key = k0
          · subst hkey
            rw [List.find?_cons_of_pos _ (by simp [hk0])]
            simp [hf0]
          · rw [List.find?_cons_of_neg _ (by simp [hk0]; exact fun h => hkey h.symm),
              ih (List.Nodup.of_cons hnd)]
            simp [List.mem_cons, hkey]
      | none =>
          rw [ih (List.Nodup.of_cons hnd)]
          by_cases hkey : key = k0
          · subst hkey
            have hnotin : key ∉ ks := (List.nodup_cons.mp hnd).1
            simp [hnotin, hf0]
          · simp [List.mem_cons, hkey]

theorem find?_revFilterMap (ks : List String) (f : String → Option Operation)
    (hf : ∀ k op, f k = some op → op.key = k) (key : String) (hnd : ks.Nodup) :
    ((ks.filterMap f).reverse).find? (fun op => op.key = key) =
      if key ∈ ks then f key else none := by
  rw [← List.filterMap_reverse,
    find?_filterMap_keyed ks.reverse f hf key (List.nodup_reverse.mpr hnd)]
  simp [List.mem_reverse]

theorem keysSub_lookup (a b : List (String × String)) (hs : keysSub a b = true)
    (key : String) (v : String) (hl : attrLookup a key = some v) :
    (attrLookup b key).isSome = true := by
  unfold attrLookup at hl
  cases hfind : a.reverse.find? (fun x => x.1 = key) with
  | none => rw [hfind] at hl; exact Option.noConfusion hl
  | some kv =>
      have hmem : kv ∈ a := List.mem_reverse.mp (List.mem_of_find?_eq_some hfind)
      have hkey : kv.1 = key := by simpa using List.find?_some hfind
      have hb := (List.all_eq_true.mp hs) kv hmem
      rw [hkey] at hb
      exact hb

theorem attrsEquiv_of_forall (a b : List (String × String))
    (h : ∀ k, attrLookup a k = attrLookup b k) : attrsEquiv a b = true := by
  rw [attrsEquiv, List.all_eq_true]
  intro k _
  simp [h k]

theorem attrsEquiv_refl (a : List (String × String)) : attrsEquiv a a = true :=
  attrsEquiv_of_forall a a (fun _ => rfl)

/-- Folding the UPDATE_ATTR operations the diff emits over the old
attribute list yields the new attribute map, pointwise: changed common
keys are overwritten, new keys are appended, and (the acknowledged gap)
removed keys simply survive — impossible here since `keysSub` says no
key was removed. -/
theorem attr_roundtrip (o n : Node) (hsub : keysSub o.attr n.attr = true)
    (hao : nodupKeys o.attr = true) (key : String) :
    attrLookup ((diffAttributes o n []).foldl
        (fun acc op => setAttr acc op.key op.newValue) o.attr) key
      = attrLookup n.attr key := by
  have hf1 : ∀ k op, ((match attrLookup o.attr k, attrLookup n.attr k with
      | some vOld, some vNew =>
          if vOld ≠ vNew then
            some { type := .updateAttr, path := ([] : List Nat), key := k,
                   oldValue := vOld, newValue := vNew }
          else none
      | _, _ => none : Option Operation)) = some op → op.key = k := by
    intro k op h
    split at h
    · split at h
      · injection h with h
        subst h
        rfl
      · exact Option.noConfusion h
    · exact Option.noConfusion h
  have hf2 : ∀ k op, ((match attrLookup o.attr k, attrLookup n.attr k with
      | none, some vNew =>
          some { type := .updateAttr, path := ([] : List Nat), key := k, newValue := vNew }
      | _, _ => none : Option Operation)) = some op → op.key = k := by
    intro k op h
    split at h
    · injection h with h
      subst h
      rfl
    · exact Option.noConfusion h
  rw [attrLookup_foldl_setAttr _ o.attr hao key]
  simp only [diffAttributes]
  rw [List.reverse_append, List.find?_append,
    find?_revFilterMap _ _ hf2 key (keyList_nodup n.attr),
    find?_revFilterMap _ _ hf1 key (keyList_nodup o.attr)]
  cases hOld : attrLookup o.attr key with
  | some vOld =>
      have hNs := keysSub_lookup o.attr n.attr hsub key vOld hOld
      obtain ⟨vNew, hNew⟩ := Option.isSome_iff_exists.mp hNs
      have hmemO : key ∈ keyList o.attr := (mem_keyList _ _).mpr (by rw [hOld]; rfl)
      by_cases hv : vOld = vNew
      · subst hv
        simp [hOld, hNew, hmemO]
      · simp [hOld, hNew, hmemO, hv]
  | none =>
      cases hNew : attrLookup n.attr key with
      | some vNew =>
          have hmemN : key ∈ keyList n.attr := (mem_keyList _ _).mpr (by rw [hNew]; rfl)
          simp [hOld, hNew, hmemN]
      | none =>
          simp [hOld, hNew]

/-! ## Semantic equivalence helpers -/

theorem nodeEquivList_of_forall (cs : List Node) :
    (∀ c ∈ cs, nodeEquiv c c = true) → nodeEquivList cs cs = true := by
  induction cs with
  | nil => intro _; rfl
  | cons c cs ih =>
      intro h
      rw [nodeEquivList, Bool.and_eq_true]
      exact ⟨h c (List.mem_cons_self c cs), ih (fun x hx => h x (List.mem_cons_of_mem c hx))⟩

theorem sizeOf_lt_of_mem_children (c : Node) (k : NKind) (d : String)
    (a : List (String × String)) (cs : List Node) (h : c ∈ cs) :
    sizeOf c < sizeOf (Node.mk k d a cs) := by
  have h1 : sizeOf c < sizeOf cs := List.sizeOf_lt_of_mem h
  simp only [Node.mk.sizeOf_spec]
  omega

theorem nodeEquiv_refl_fuel : ∀ sz : Nat, ∀ x : Node, sizeOf x ≤ sz → nodeEquiv x x = true := by
  intro sz
  induction sz with
  | zero =>
      intro x h
      exfalso
      cases x with | mk k d a cs => ?_
      simp only [Node.mk.sizeOf_spec] at h
      omega
  | succ sz ih =>
      intro x h
      cases x with | mk k d a cs => ?_
      rw [nodeEquiv]
      simp only [Bool.and_eq_true, decide_eq_true_eq]
      refine ⟨⟨⟨rfl, rfl⟩, attrsEquiv_refl a⟩,
        nodeEquivList_of_forall cs (fun c hc => ih c ?_)⟩
      have := sizeOf_lt_of_mem_children c k d a cs hc
      omega

theorem nodeEquiv_refl (x : Node) : nodeEquiv x x = true :=
  nodeEquiv_refl_fuel (sizeOf x) x (le_refl _)

theorem nodeEquivList_refl (cs : List Node) : nodeEquivList cs cs = true :=
  nodeEquivList_of_forall cs (fun c _ => nodeEquiv_refl c)

theorem nodeEquivList_append (xs : List Node) :
    ∀ (ys xs2 ys2 : List Node), xs.length = ys.length →
      nodeEquivList xs ys = true → nodeEquivList xs2 ys2 = true →
      nodeEquivList (xs ++ xs2) (ys ++ ys2) = true := by
  induction xs with
  | nil =>
      intro ys xs2 ys2 hlen _ h2
      cases ys with
      | nil => exact h2
      | cons y ys => exact absurd hlen (by simp)
  | cons x xs ih =>
      intro ys xs2 ys2 hlen h1 h2
      cases ys with
      | nil => exact absurd hlen (by simp)
      | cons y ys =>
          rw [List.cons_append, List.cons_append, nodeEquivList, Bool.and_eq_true]
          rw [nodeEquivList, Bool.and_eq_true] at h1
          exact ⟨h1.1, ih ys xs2 ys2 (by simpa using hlen) h1.2 h2⟩

theorem set_append_len (pre : List Node) (a r : Node) (l : List Node) :
    (pre ++ a :: l).set pre.length r = pre ++ r :: l := by
  induction pre with
  | nil => rfl
  | cons p pre ih =>
      rw [List.cons_append, List.length_cons]
      show p :: (pre ++ a :: l).set pre.length r = p :: (pre ++ r :: l)
      rw [ih]

/-- The common loop only walks the shared prefix of the two lists. -/
theorem diffCommon_take (cs : List Node) :
    ∀ (ncs : List Node) (p : List Nat) (i : Nat),
      diffCommon cs ncs p i =
        diffCommon (cs.take (min cs.length ncs.length))
          (ncs.take (min cs.length ncs.length)) p i := by
  induction cs with
  | nil => intro ncs p i; cases ncs <;> rfl
  | cons a as ih =>
      intro ncs p i
      cases ncs with
      | nil => rfl
      | cons b bs =>
          rw [List.length_cons, List.length_cons, Nat.succ_min_succ, List.take_succ_cons,
            List.take_succ_cons, diffCommon, diffCommon, ih bs p (i + 1)]

theorem compatList_forall₂ (R : Node → Node → Prop) :
    ∀ (as bs : List Node), compatList as bs = true →
      (∀ a b, a ∈ as → compat a b = true → R a b) →
      List.Forall₂ R (as.take (min as.length bs.length)) (bs.take (min as.length bs.length)) := by
  intro as
  induction as with
  | nil =>
      intro bs _ _
      rw [show min ([] : List Node).length bs.length = 0 from by simp]
      exact List.Forall₂.nil
  | cons a as ih =>
      intro bs hcl hR
      cases bs with
      | nil =>
          rw [show min (a :: as).length ([] : List Node).length = 0 from by simp]
          exact List.Forall₂.nil
      | cons b bs =>
          rw [compatList, Bool.and_eq_true] at hcl
          rw [List.length_cons, List.length_cons, Nat.succ_min_succ, List.take_succ_cons,
            List.take_succ_cons]
          exact List.Forall₂.cons (hR a b (List.mem_cons_self a as) hcl.1)
            (ih bs hcl.2 (fun x y hx => hR x y (List.mem_cons_of_mem a hx)))

/-- Running the common-range diff inside an explicit child-list frame:
each aligned pair is rewritten in place, producing equivalent children. -/
theorem applyAll_diffCommon (as : List Node) :
    ∀ bs : List Node,
      List.Forall₂ (fun a b => ∃ r, applyAll a (diffNodes a b []) = .ok r ∧ nodeEquiv r b = true)
        as bs →
      ∀ (k : NKind) (d : String) (at0 : List (String × String)) (pre post : List Node),
        ∃ rs, rs.length = as.length ∧ nodeEquivList rs bs = true ∧
          applyAll (Node.mk k d at0 (pre ++ as ++ post)) (diffCommon as bs [] pre.length)
            = .ok (Node.mk k d at0 (pre ++ rs ++ post)) := by
  induction as with
  | nil =>
      intro bs hF k d at0 pre post
      cases hF
      exact ⟨[], rfl, rfl, by
        rw [show diffCommon [] [] ([] : List Nat) pre.length = [] from rfl, applyAll_nil]⟩
  | cons a as ih =>
      intro bs0 hF k d at0 pre post
      cases bs0 with
      | nil => cases hF
      | cons b bs =>
          cases hF with
          | cons hab hrest =>
              obtain ⟨r, hr, hre⟩ := hab
              obtain ⟨rs, hlen, heq, happly⟩ := ih bs hrest k d at0 (pre ++ [r]) post
              refine ⟨r :: rs, by simp [hlen], ?_, ?_⟩
              · rw [nodeEquivList, Bool.and_eq_true]
                exact ⟨hre, heq⟩
              · rw [diffCommon, List.nil_append, diffNodes_shift a b [pre.length],
                  applyAll_append]
                have hchild : (Node.mk k d at0 (pre ++ a :: as ++ post)).children[pre.length]?
                    = some a := by
                  show ((pre ++ a :: as) ++ post)[pre.length]? = some a
                  rw [List.append_assoc, List.getElem?_append_right (le_refl pre.length),
                    Nat.sub_self, List.cons_append, List.getElem?_cons_zero]
                have hwf : ∀ op ∈ diffNodes a b [], op.type = .deleteNode → op.path ≠ [] := by
                  intro op hop hdel
                  obtain ⟨t, hp, hdne⟩ := diffNodes_shape a b [] op hop
                  rw [hp, List.nil_append]
                  exact hdne hdel
                have hlift := applyAll_shift (diffNodes a b []) r pre.length a
                  (Node.mk k d at0 (pre ++ a :: as ++ post)) hwf hr hchild
                rw [hlift]
                simp only []
                have hset : ((Node.mk k d at0 (pre ++ a :: as ++ post)).withChildren
                    ((Node.mk k d at0 (pre ++ a :: as ++ post)).children.set pre.length r))
                    = Node.mk k d at0 ((pre ++ [r]) ++ as ++ post) := by
                  show Node.mk k d at0 (((pre ++ a :: as) ++ post).set pre.length r) = _
                  have hre2 : (pre ++ a :: as) ++ post = pre ++ a :: (as ++ post) := by simp
                  rw [hre2, set_append_len]
                  congr 1
                  simp
                rw [hset]
                rw [show (pre ++ [r]).length = pre.length + 1 from by simp] at happly
                rw [happly]
                congr 1
                congr 1
                simp

/-- The three child loops of `diffChildren` in sequence: update the
common range in place, truncate the old extras, append the new extras. -/
theorem applyAll_children (k : NKind) (d : String) (at0 : List (String × String))
    (cs ncs : List Node) (hcl : compatList cs ncs = true)
    (hR : ∀ a b, a ∈ cs → compat a b = true →
      ∃ r, applyAll a (diffNodes a b []) = .ok r ∧ nodeEquiv r b = true) :
    ∃ rs, nodeEquivList rs ncs = true ∧
      applyAll (Node.mk k d at0 cs)
        (diffCommon cs ncs [] 0
          ++ deleteRange [] (min cs.length ncs.length) cs.length
          ++ insertRange [] (min cs.length ncs.length) (ncs.drop (min cs.length ncs.length)))
        = .ok (Node.mk k d at0 rs) := by
  set m := min cs.length ncs.length with hmdef
  have hm1 : m ≤ cs.length := Nat.min_le_left _ _
  have hm2 : m ≤ ncs.length := Nat.min_le_right _ _
  have hF := compatList_forall₂
    (fun a b => ∃ r, applyAll a (diffNodes a b []) = .ok r ∧ nodeEquiv r b = true)
    cs ncs hcl (fun a b ha hc => hR a b ha hc)
  rw [← hmdef] at hF
  obtain ⟨rs0, hlen0, heq0, happly0⟩ := applyAll_diffCommon (cs.take m) (ncs.take m) hF
    k d at0 [] (cs.drop m)
  rw [List.nil_append, List.nil_append, List.take_append_drop, List.length_nil] at happly0
  have hrs0len : rs0.length = m := by
    rw [hlen0, List.length_take]
    omega
  rw [applyAll_append, applyAll_append, diffCommon_take cs ncs [] 0, ← hmdef, happly0]
  simp only []
  have hdel0 := applyAll_deleteRange m (cs.length - m) (Node.mk k d at0 (rs0 ++ cs.drop m))
    (by show (rs0 ++ cs.drop m).length = m + (cs.length - m)
        rw [List.length_append, hrs0len, List.length_drop])
  have hdel : applyAll (Node.mk k d at0 (rs0 ++ cs.drop m)) (deleteRange [] m cs.length)
      = .ok (Node.mk k d at0 ((rs0 ++ cs.drop m).take m)) := by
    rw [show cs.length = m + (cs.length - m) from by omega]
    exact hdel0
  have htake : (rs0 ++ cs.drop m).take m = rs0 := by
    rw [← hrs0len, List.take_left]
  rw [htake] at hdel
  rw [hdel]
  simp only []
  have hins := applyAll_insertRange (ncs.drop m) (Node.mk k d at0 rs0) m
    (by show rs0.length = m
        exact hrs0len)
  have hins2 : applyAll (Node.mk k d at0 rs0) (insertRange [] m (ncs.drop m))
      = .ok (Node.mk k d at0 (rs0 ++ ncs.drop m)) := hins
  rw [hins2]
  refine ⟨rs0 ++ ncs.drop m, ?_, rfl⟩
  have hEq := nodeEquivList_append rs0 (ncs.take m) (ncs.drop m) (ncs.drop m)
    (by rw [hrs0len, List.length_take]; omega) heq0 (nodeEquivList_refl _)
  rw [List.take_append_drop] at hEq
  exact hEq

/-- Round trip for the kinds the diff engine traverses opaquely
(document, comment, doctype): only the children loops run. -/
theorem roundtrip_other (k : NKind) (hkE : k ≠ .element) (hkT : k ≠ .text)
    (d : String) (a : List (String × String)) (cs : List Node) (n : Node)
    (hkind : k = n.kind) (hd : d = n.data) (hattr : a = n.attr)
    (hcl : compatList cs n.children = true)
    (hR : ∀ a' b, a' ∈ cs → compat a' b = true →
      ∃ r, applyAll a' (diffNodes a' b []) = .ok r ∧ nodeEquiv r b = true) :
    ∃ r, applyAll (Node.mk k d a cs) (diffNodes (Node.mk k d a cs) n []) = .ok r ∧
      nodeEquiv r n = true := by
  have hops : diffNodes (Node.mk k d a cs) n [] =
      diffCommon cs n.children [] 0
        ++ deleteRange [] (min cs.length n.children.length) cs.length
        ++ insertRange [] (min cs.length n.children.length)
            (n.children.drop (min cs.length n.children.length)) := by
    simp only [diffNodes, Node.children_mk]
    rw [if_neg hkE, if_neg (by simp [hkT]), List.nil_append, List.nil_append]
  obtain ⟨rs, hrseq, happc⟩ := applyAll_children k d a cs n.children hcl hR
  refine ⟨Node.mk k d a rs, ?_, ?_⟩
  · rw [hops]
    exact happc
  · rw [nodeEquiv]
    simp only [Bool.and_eq_true, decide_eq_true_eq]
    exact ⟨⟨⟨hkind, hd⟩, by rw [hattr]; exact attrsEquiv_refl n.attr⟩, hrseq⟩

/-- Fuel-indexed round trip: under `compat`, applying the diff of
`(o, n)` to `o` succeeds and the result is semantically equivalent to
`n`. -/
theorem roundtrip_fuel : ∀ sz : Nat, ∀ o n : Node, sizeOf o ≤ sz → compat o n = true →
    ∃ r, applyAll o (diffNodes o n []) = .ok r ∧ nodeEquiv r n = true := by
  intro sz
  induction sz with
  | zero =>
      intro o n h _
      exfalso
      cases o with | mk k d a cs => ?_
      simp only [Node.mk.sizeOf_spec] at h
      omega
  | succ sz ih =>
      intro o n hsz hc
      cases o with | mk k d a cs => ?_
      have hR : ∀ a' b, a' ∈ cs → compat a' b = true →
          ∃ r, applyAll a' (diffNodes a' b []) = .ok r ∧ nodeEquiv r b = true := by
        intro a' b ha' hcab
        refine ih a' b ?_ hcab
        have := sizeOf_lt_of_mem_children a' k d a cs ha'
        omega
      simp only [compat] at hc
      cases k with
      | element =>
          simp only [Bool.and_eq_true, decide_eq_true_eq] at hc
          obtain ⟨⟨hkind, ⟨⟨⟨hd, hsub⟩, hnda⟩, hndn⟩⟩, hcl⟩ := hc
          have hattrops : ∀ op ∈ diffAttributes (Node.mk .element d a cs) n [],
              op.type = .updateAttr ∧ op.path = [] := by
            intro op hop
            exact diffAttributes_mem _ _ _ _ hop
          have hA := applyAll_updateAttrs (diffAttributes (Node.mk .element d a cs) n [])
            (Node.mk .element d a cs) rfl hattrops
          simp only [Node.attr_mk, Node.withAttr_mk] at hA
          have hops : diffNodes (Node.mk .element d a cs) n [] =
              diffAttributes (Node.mk .element d a cs) n [] ++
                (diffCommon cs n.children [] 0
                  ++ deleteRange [] (min cs.length n.children.length) cs.length
                  ++ insertRange [] (min cs.length n.children.length)
                      (n.children.drop (min cs.length n.children.length))) := by
            simp only [diffNodes, Node.children_mk, if_true]
            rw [if_neg (fun h => absurd h.1 (by decide)), List.append_nil]
          obtain ⟨rs, hrseq, happc⟩ := applyAll_children .element d
            ((diffAttributes (Node.mk .element d a cs) n []).foldl
              (fun acc op => setAttr acc op.key op.newValue) a) cs n.children hcl hR
          refine ⟨Node.mk .element d ((diffAttributes (Node.mk .element d a cs) n []).foldl
              (fun acc op => setAttr acc op.key op.newValue) a) rs, ?_, ?_⟩
          · rw [hops, applyAll_append, hA]
            simp only []
            exact happc
          · rw [nodeEquiv]
            simp only [Bool.and_eq_true, decide_eq_true_eq]
            refine ⟨⟨⟨hkind, hd⟩, ?_⟩, hrseq⟩
            exact attrsEquiv_of_forall _ n.attr
              (fun key => attr_roundtrip (Node.mk .element d a cs) n hsub hnda key)
      | text =>
          simp only [Bool.and_eq_true, decide_eq_true_eq] at hc
          obtain ⟨⟨hkind, hattr⟩, hcl⟩ := hc
          by_cases hd : d = n.data
          · have hops : diffNodes (Node.mk .text d a cs) n [] =
                diffCommon cs n.children [] 0
                  ++ deleteRange [] (min cs.length n.children.length) cs.length
                  ++ insertRange [] (min cs.length n.children.length)
                      (n.children.drop (min cs.length n.children.length)) := by
              simp only [diffNodes, Node.children_mk]
              rw [if_neg (by simp), if_neg (by simp [hd]), List.nil_append, List.nil_append]
            obtain ⟨rs, hrseq, happc⟩ := applyAll_children .text d a cs n.children hcl hR
            refine ⟨Node.mk .text d a rs, ?_, ?_⟩
            · rw [hops]
              exact happc
            · rw [nodeEquiv]
              simp only [Bool.and_eq_true, decide_eq_true_eq]
              exact ⟨⟨⟨hkind, hd⟩, by rw [hattr]; exact attrsEquiv_refl n.attr⟩, hrseq⟩
          · have hops : diffNodes (Node.mk .text d a cs) n [] =
                ({ type := .updateText, path := [], oldValue := d,
                   newValue := n.data } : Operation)
                  :: (diffCommon cs n.children [] 0
                    ++ deleteRange [] (min cs.length n.children.length) cs.length
                    ++ insertRange [] (min cs.length n.children.length)
                        (n.children.drop (min cs.length n.children.length))) := by
              simp only [diffNodes, Node.children_mk]
              rw [if_neg (by simp), if_pos ⟨trivial, hd⟩, List.nil_append, List.singleton_append]
            have hop1 : applyOp (Node.mk .text d a cs)
                { type := .updateText, path := [], oldValue := d, newValue := n.data } =
                .ok (Node.mk .text n.data a cs) := by
              simp only [applyOp, updateAt]
              rw [if_neg (by simp), if_neg (by simp)]
              rfl
            obtain ⟨rs, hrseq, happc⟩ := applyAll_children .text n.data a cs n.children hcl hR
            refine ⟨Node.mk .text n.data a rs, ?_, ?_⟩
            · rw [hops, applyAll_cons, hop1]
              simp only []
              exact happc
            · rw [nodeEquiv]
              simp only [Bool.and_eq_true, decide_eq_true_eq]
              exact ⟨⟨⟨hkind, trivial⟩, by rw [hattr]; exact attrsEquiv_refl n.attr⟩, hrseq⟩
      | document =>
          simp only [Bool.and_eq_true, decide_eq_true_eq] at hc
          obtain ⟨⟨hkind, hd, hattr⟩, hcl⟩ := hc
          exact roundtrip_other _ (by decide) (by decide) d a cs n hkind hd hattr hcl hR
      | comment =>
          simp only [Bool.and_eq_true, decide_eq_true_eq] at hc
          obtain ⟨⟨hkind, hd, hattr⟩, hcl⟩ := hc
          exact roundtrip_other _ (by decide) (by decide) d a cs n hkind hd hattr hcl hR
      | doctype =>
          simp only [Bool.and_eq_true, decide_eq_true_eq] at hc
          obtain ⟨⟨hkind, hd, hattr⟩, hcl⟩ := hc
          exact roundtrip_other _ (by decide) (by decide) d a cs n hkind hd hattr hcl hR

/-- Round trip at the node level. -/
theorem diff_roundtrip (o n : Node) (hc : compat o n = true) :
    ∃ r, applyAll o (diffNodes o n []) = .ok r ∧ nodeEquiv r n = true :=
  roundtrip_fuel (sizeOf o) o n (le_refl _) hc

/-- Claim C1 (amended): for parser outputs inside the diff engine's
covered territory (`compat`), `Patch` of the `Diff`-produced delta
succeeds and yields a document semantically equivalent to the reparsed
`h2` — same tree shape and data, attribute lists equal as maps, though
their order (and hence the rendered text) may differ. -/
theorem C1_round_trip_amended (E : Ext) (h1 h2 author : String) (o n : Node)
    (hp1 : E.parse h1 = .ok o) (hp2 : E.parse h2 = .ok n)
    (hcompat : compat o n = true) :
    ∃ d r, Diff E h1 h2 author = .ok d ∧ runOps o d.operations 0 = .ok r ∧
      nodeEquiv r n = true ∧ Patch E h1 d = E.render r := by
  obtain ⟨r, hap, heq⟩ := diff_roundtrip o n hcompat
  have hrun : runOps o (diffNodes o n []) 0 = .ok r := runOps_of_applyAll _ o r 0 hap
  refine ⟨{ baseHash := hashString h1, operations := diffNodes o n [], author := author }, r,
    ?_, hrun, heq, ?_⟩
  · simp only [Diff, hp1, hp2]
  · simp only [Patch]
    rw [if_neg (by simp)]
    rw [hp1]
    simp only []
    rw [hrun]

/-- Claim C1 counterexample: the claim promises success plus equal
rendered text for every accepted input pair.  (1) With a changed tag
(`p` versus `div`) the structural-replacement branch of `diffNodes` is
an empty block, the diff is empty, and `Patch` succeeds yet renders the
old document.  (2) Even on a compat pair, an added attribute is
appended by `setAttr` while the new document lists it first, so the
rendered texts differ although the trees are equivalent as maps. -/
theorem C1_counterexample :
    (∃ d, Diff (twoDocExt
          (Node.mk .document "" [] [Node.mk .element "p" [] [Node.mk .text "x" [] []]])
          (Node.mk .document "" [] [Node.mk .element "div" [] [Node.mk .text "x" [] []]]))
        "old" "new" "me" = .ok d ∧
      Patch (twoDocExt
          (Node.mk .document "" [] [Node.mk .element "p" [] [Node.mk .text "x" [] []]])
          (Node.mk .document "" [] [Node.mk .element "div" [] [Node.mk .text "x" [] []]]))
        "old" d = .ok "<p>x</p>") ∧
    (twoDocExt
        (Node.mk .document "" [] [Node.mk .element "p" [] [Node.mk .text "x" [] []]])
        (Node.mk .document "" [] [Node.mk .element "div" [] [Node.mk .text "x" [] []]])).render
      (Node.mk .document "" [] [Node.mk .element "div" [] [Node.mk .text "x" [] []]])
      = .ok "<div>x</div>" ∧
    "<p>x</p>" ≠ "<div>x</div>" ∧
    (∃ d2, Diff (twoDocExt
          (Node.mk .document "" [] [Node.mk .element "p" [("a", "1")] []])
          (Node.mk .document "" [] [Node.mk .element "p" [("b", "2"), ("a", "1")] []]))
        "old" "new" "me" = .ok d2 ∧
      Patch (twoDocExt
          (Node.mk .document "" [] [Node.mk .element "p" [("a", "1")] []])
          (Node.mk .document "" [] [Node.mk .element "p" [("b", "2"), ("a", "1")] []]))
        "old" d2 = .ok "<p a=1 b=2></p>" ∧
      (twoDocExt
          (Node.mk .document "" [] [Node.mk .element "p" [("a", "1")] []])
          (Node.mk .document "" [] [Node.mk .element "p" [("b", "2"), ("a", "1")] []])).render
        (Node.mk .document "" [] [Node.mk .element "p" [("b", "2"), ("a", "1")] []])
        = .ok "<p b=2 a=1></p>" ∧
      "<p a=1 b=2></p>" ≠ "<p b=2 a=1></p>" ∧
      ∃ r, runOps (Node.mk .document "" [] [Node.mk .element "p" [("a", "1")] []])
          d2.operations 0 = .ok r ∧
        nodeEquiv r (Node.mk .document "" [] [Node.mk .element "p" [("b", "2"), ("a", "1")] []])
          = true) := by
  refine ⟨⟨{ baseHash := hashString "old", operations := [], author := "me" }, rfl, ?_⟩,
    rfl, by decide,
    ⟨{ baseHash := hashString "old",
       operations := [{ type := .updateAttr, path := [0], key := "b", newValue := "2" }],
       author := "me" }, rfl, ?_, rfl, by decide,
      ⟨Node.mk .document "" [] [Node.mk .element "p" [("a", "1"), ("b", "2")] []], rfl,
        by decide⟩⟩⟩
  · simp only [Patch]
    rw [if_neg (by simp)]
    rfl
  · simp only [Patch]
    rw [if_neg (by simp)]
    rfl

/-- Claim C1 witness: a compat pair exercising an attribute update, an
attribute addition, a text change and a child insertion; the amended
round trip holds for it. -/
theorem C1_round_trip_amended_witness :
    ∃ d r,
      Diff (twoDocExt
          (Node.mk .document "" []
            [Node.mk .element "p" [("a", "1")] [Node.mk .text "x" [] []]])
          (Node.mk .document "" []
            [Node.mk .element "p" [("a", "2"), ("b", "3")] [Node.mk .text "y" [] []],
             Node.mk .text "z" [] []]))
        "old" "new" "me" = .ok d ∧
      runOps (Node.mk .document "" []
          [Node.mk .element "p" [("a", "1")] [Node.mk .text "x" [] []]])
        d.operations 0 = .ok r ∧
      nodeEquiv r (Node.mk .document "" []
          [Node.mk .element "p" [("a", "2"), ("b", "3")] [Node.mk .text "y" [] []],
           Node.mk .text "z" [] []]) = true ∧
      Patch (twoDocExt
          (Node.mk .document "" []
            [Node.mk .element "p" [("a", "1")] [Node.mk .text "x" [] []]])
          (Node.mk .document "" []
            [Node.mk .element "p" [("a", "2"), ("b", "3")] [Node.mk .text "y" [] []],
             Node.mk .text "z" [] []]))
        "old" d = (twoDocExt
          (Node.mk .document "" []
            [Node.mk .element "p" [("a", "1")] [Node.mk .text "x" [] []]])
          (Node.mk .document "" []
            [Node.mk .element "p" [("a", "2"), ("b", "3")] [Node.mk .text "y" [] []],
             Node.mk .text "z" [] []])).render r :=
  C1_round_trip_amended
    (twoDocExt
      (Node.mk .document "" []
        [Node.mk .element "p" [("a", "1")] [Node.mk .text "x" [] []]])
      (Node.mk .document "" []
        [Node.mk .element "p" [("a", "2"), ("b", "3")] [Node.mk .text "y" [] []],
         Node.mk .text "z" [] []]))
    "old" "new" "me"
    (Node.mk .document "" []
      [Node.mk .element "p" [("a", "1")] [Node.mk .text "x" [] []]])
    (Node.mk .document "" []
      [Node.mk .element "p" [("a", "2"), ("b", "3")] [Node.mk .text "y" [] []],
       Node.mk .text "z" [] []])
    rfl rfl (by decide)

end VcHtml
